import Mathlib

/-!
Verification of the neocuviz cube rotation engine (`neocuviz/src/cube.rs`) and
move-notation parser (`src/notation.rs`).

Modelling conventions of this shallow embedding:

* A `Box<[CubeFace]>` face grid of length `N²` is modelled as a function
  `Nat → CubeFace`; only the positions `p < N²` are observable, and state
  equality is stated with `Cube.EqState`, which compares exactly those
  positions (equality of the Rust arrays).
* The `face_transform` table is a pure function of `divisions`, computed once
  at construction and never mutated, so we model the cached table by its
  lookup function `face_transform divisions`.
* `usize` subtraction follows checked (debug-build) semantics: `sub? a b` is
  `none` on underflow, modelling the overflow panic.  A panic — underflow, a
  failed `assert_eq!(values.len(), self.divisions)` in `swap_to_row` /
  `swap_to_column`, or an out-of-bounds slice write — is modelled as `none`
  of the surrounding `Option` computation.
* Rust's `char::is_whitespace` (the Unicode `White_Space` property) is
  modelled by `isRustWhitespace`, a direct transcription of the 25 code
  points with that property.
-/

/-- The six cube faces / facelet labels (`CubeFace` in `cube.rs`). -/
inductive CubeFace where
  | Front
  | Back
  | Left
  | Right
  | Up
  | Down
deriving DecidableEq, Repr, Fintype

/-- Movement targets (`Face` in `notation.rs`): six face turns with layer
depth, three fixed slices, three whole-cube axes. -/
inductive MFace where
  | Front (layers : Nat)
  | Standing
  | Back (layers : Nat)
  | Left (layers : Nat)
  | Middle
  | Right (layers : Nat)
  | Up (layers : Nat)
  | Equational
  | Down (layers : Nat)
  | X
  | Y
  | Z
deriving DecidableEq, Repr

/-- Rotation directions (`Rotation` in `notation.rs`). -/
inductive Rotation where
  | Clockwise
  | Counterclockwise
  | Turnover
deriving DecidableEq, Repr

/-- One rotation command (`Movement` in `notation.rs`). -/
structure Movement where
  target : MFace
  direction : Rotation
deriving DecidableEq, Repr

/-- Cube-operation errors (`CubeError` in `cube.rs`). -/
inductive CubeError where
  | UndefinedMovement (m : Movement)
deriving DecidableEq, Repr

/-- The virtual cube (`Cube` in `cube.rs`): a division count and six face
grids.  The grid of face `f` is `faces f`, a row-major `N×N` array modelled
by its indexing function. -/
structure Cube where
  divisions : Nat
  faces : CubeFace → Nat → CubeFace

/-- The index map of the rotation table built in `Cube::new` (cube.rs:61-67):
entry `i` of the table is `i_90 = y2 * n + x2` for
`(x1, y1) = (i % n, i / n)` and `(x2, y2) = (y1, n - x1 - 1)`. -/
def face_transform (n : Nat) : Nat → Nat := fun i =>
  let x1 := i % n
  let y1 := i / n
  let x2 := y1
  let y2 := n - x1 - 1
  y2 * n + x2

/-- `Cube::new` (cube.rs:60-88): every face grid is uniformly filled with
that face's own label. -/
def Cube.new (divisions : Nat) : Cube :=
  { divisions := divisions, faces := fun f _ => f }

/-- A strip extracted from a grid: a length (the Rust slice length) together
with the value function.  `extract_row` / `extract_column` always conceptually
yield `divisions` entries, but an out-of-range row yields a shorter slice in
Rust, which the `assert_eq!` in the swap functions then catches; we track the
length for exactly that check. -/
structure Strip where
  len : Nat
  vals : Nat → CubeFace

/-- Checked `usize` subtraction: `none` models the debug-build overflow
panic. -/
def sub? (a b : Nat) : Option Nat :=
  if b ≤ a then some (a - b) else none

/-- `Cube::extract_row` (cube.rs:272-282): `iter().skip(row * n).take(n)`,
so element `i` sits at position `row * n + i` and the slice length is
`min n (n*n - row*n)`. -/
def Cube.extract_row (c : Cube) (face : CubeFace) (row : Nat) : Strip :=
  { len := min c.divisions (c.divisions * c.divisions - row * c.divisions),
    vals := fun i => c.faces face (row * c.divisions + i) }

/-- `Cube::extract_column` (cube.rs:285-301): the positions `p < n*n` with
`p % n = column`, i.e. element `i` sits at `i * n + column`; the filter
yields `n` entries when `column < n` and none otherwise. -/
def Cube.extract_column (c : Cube) (face : CubeFace) (column : Nat) : Strip :=
  { len := if column < c.divisions then c.divisions else 0,
    vals := fun i => c.faces face (i * c.divisions + column) }

/-- `HashMap::insert` on the face-keyed grid map. -/
def setFace (faces : CubeFace → Nat → CubeFace) (f : CubeFace) (g : Nat → CubeFace) :
    CubeFace → Nat → CubeFace :=
  fun f2 => if f2 = f then g else faces f2

/-- `Cube::swap_to_row` (cube.rs:304-329): asserts the strip length is `n`,
pops the old row, then writes `values` (reversed when `invert`) into
positions `row*n + i` for `i < n`.  `none` models the assertion failure, or
the out-of-bounds write that occurs when `n > 0` and `row ≥ n`. -/
def Cube.swap_to_row (c : Cube) (target_face : CubeFace) (target_row : Nat)
    (values : Strip) (invert : Bool) : Option (Strip × Cube) :=
  let n := c.divisions
  if values.len = n ∧ (n = 0 ∨ target_row < n) then
    let popped := c.extract_row target_face target_row
    let g : Nat → CubeFace := fun p =>
      if target_row * n ≤ p ∧ p < target_row * n + n then
        values.vals (if invert then n - 1 - (p - target_row * n) else p - target_row * n)
      else c.faces target_face p
    some (popped, { c with faces := setFace c.faces target_face g })
  else none

/-- `Cube::swap_to_column` (cube.rs:332-357): asserts the strip length is
`n`, pops the old column, then writes `values` (reversed when `invert`) into
positions `column + n * i` for `i < n`. -/
def Cube.swap_to_column (c : Cube) (target_face : CubeFace) (target_column : Nat)
    (values : Strip) (invert : Bool) : Option (Strip × Cube) :=
  let n := c.divisions
  if values.len = n ∧ (n = 0 ∨ target_column < n) then
    let popped := c.extract_column target_face target_column
    let g : Nat → CubeFace := fun p =>
      if p % n = target_column ∧ p < n * n then
        values.vals (if invert then n - 1 - p / n else p / n)
      else c.faces target_face p
    some (popped, { c with faces := setFace c.faces target_face g })
  else none

/-- `Cube::turn_face` (cube.rs:196-213): `count` times, replace the grid `g`
by `fun j => g (table j)`. -/
def Cube.turn_face (c : Cube) (face : CubeFace) (count : Nat) : Cube :=
  let step : (Nat → CubeFace) → Nat → CubeFace :=
    fun g j => g (face_transform c.divisions j)
  { c with faces := setFace c.faces face (step^[count] (c.faces face)) }

/-- The loop body of `Cube::turn_layer_x` (cube.rs:220-233). -/
def Cube.turn_layer_x_step (c : Cube) (column_front : Nat) : Option Cube := do
  let front_column := c.extract_column CubeFace.Front column_front
  let (up_column, c1) ← c.swap_to_column CubeFace.Up column_front front_column false
  let d1 ← sub? c1.divisions 1
  let back_column_index ← sub? d1 column_front
  let (back_column, c2) ← c1.swap_to_column CubeFace.Back back_column_index up_column true
  let (down_column, c3) ← c2.swap_to_column CubeFace.Down column_front back_column true
  let (_, c4) ← c3.swap_to_column CubeFace.Front column_front down_column false
  some c4

/-- Monadic `for _ in 0..count` over a cube-transforming body. -/
def iterateM (f : Cube → Option Cube) : Nat → Cube → Option Cube
  | 0, c => some c
  | k + 1, c => (f c).bind (iterateM f k)

/-- `Cube::turn_layer_x` (cube.rs:220-233). -/
def Cube.turn_layer_x (c : Cube) (column_front : Nat) (count : Nat) : Option Cube :=
  iterateM (fun c2 => c2.turn_layer_x_step column_front) count c

/-- The loop body of `Cube::turn_layer_y` (cube.rs:240-248). -/
def Cube.turn_layer_y_step (c : Cube) (row_right : Nat) : Option Cube := do
  let right_row := c.extract_row CubeFace.Right row_right
  let (front_row, c1) ← c.swap_to_row CubeFace.Front row_right right_row false
  let (left_row, c2) ← c1.swap_to_row CubeFace.Left row_right front_row false
  let (back_row, c3) ← c2.swap_to_row CubeFace.Back row_right left_row false
  let (_, c4) ← c3.swap_to_row CubeFace.Right row_right back_row false
  some c4

/-- `Cube::turn_layer_y` (cube.rs:240-248). -/
def Cube.turn_layer_y (c : Cube) (row_right : Nat) (count : Nat) : Option Cube :=
  iterateM (fun c2 => c2.turn_layer_y_step row_right) count c

/-- The loop body of `Cube::turn_layer_z` (cube.rs:255-269). -/
def Cube.turn_layer_z_step (c : Cube) (row_up : Nat) : Option Cube := do
  let up_row := c.extract_row CubeFace.Up row_up
  let d1 ← sub? c.divisions 1
  let right_column_index ← sub? d1 row_up
  let (right_column, c1) ← c.swap_to_column CubeFace.Right right_column_index up_row false
  let d2 ← sub? c1.divisions 1
  let down_row_index ← sub? d2 row_up
  let (down_row, c2) ← c1.swap_to_row CubeFace.Down down_row_index right_column true
  let (left_row, c3) ← c2.swap_to_column CubeFace.Left row_up down_row false
  let (_, c4) ← c3.swap_to_row CubeFace.Up row_up left_row true
  some c4

/-- `Cube::turn_layer_z` (cube.rs:255-269). -/
def Cube.turn_layer_z (c : Cube) (row_up : Nat) (count : Nat) : Option Cube :=
  iterateM (fun c2 => c2.turn_layer_z_step row_up) count c

/-- The `count` computed at the top of `Cube::apply` (cube.rs:100-104). -/
def rotationCount : Rotation → Nat
  | Rotation.Clockwise => 1
  | Rotation.Turnover => 2
  | Rotation.Counterclockwise => 3

/-- Outcome of `Cube::apply` on `&mut self`: the post-state together with the
returned `Result<(), CubeError>`.  A panic is modelled by `none` of the
surrounding option. -/
inductive ApplyResult where
  | ok (c : Cube)
  | err (e : CubeError) (c : Cube)

/-- The `for i in 0..l { ... }` loops of `Cube::apply`, threading the cube
through the (possibly panicking) body. -/
def forRange (f : Nat → Cube → Option Cube) : Nat → Cube → Option Cube
  | 0, c => some c
  | k + 1, c => (forRange f k c).bind (f k)

/-- `Cube::apply` (cube.rs:99-190). -/
def Cube.apply (c : Cube) (movement : Movement) : Option ApplyResult :=
  let count := rotationCount movement.direction
  match movement.target with
  | MFace.Front l =>
    (forRange
      (fun i c2 => do
        let d ← sub? c2.divisions 1
        let j ← sub? d i
        c2.turn_layer_z j count)
      l (c.turn_face CubeFace.Front count)).map ApplyResult.ok
  | MFace.Back l =>
    (forRange (fun i c2 => c2.turn_layer_z i (4 - count))
      l (c.turn_face CubeFace.Back count)).map ApplyResult.ok
  | MFace.Left l =>
    (forRange (fun i c2 => c2.turn_layer_x i (4 - count))
      l (c.turn_face CubeFace.Left count)).map ApplyResult.ok
  | MFace.Right l =>
    (forRange
      (fun i c2 => do
        let d ← sub? c2.divisions 1
        let j ← sub? d i
        c2.turn_layer_x j count)
      l (c.turn_face CubeFace.Right count)).map ApplyResult.ok
  | MFace.Up l =>
    (forRange (fun i c2 => c2.turn_layer_y i count)
      l (c.turn_face CubeFace.Up count)).map ApplyResult.ok
  | MFace.Down l =>
    (forRange
      (fun i c2 => do
        let d ← sub? c2.divisions 1
        let j ← sub? d i
        c2.turn_layer_y j (4 - count))
      l (c.turn_face CubeFace.Down count)).map ApplyResult.ok
  | MFace.Standing =>
    if c.divisions ≠ 3 then some (ApplyResult.err (CubeError.UndefinedMovement movement) c)
    else (c.turn_layer_z 1 count).map ApplyResult.ok
  | MFace.Middle =>
    if c.divisions ≠ 3 then some (ApplyResult.err (CubeError.UndefinedMovement movement) c)
    else (c.turn_layer_x 1 (4 - count)).map ApplyResult.ok
  | MFace.Equational =>
    if c.divisions ≠ 3 then some (ApplyResult.err (CubeError.UndefinedMovement movement) c)
    else (c.turn_layer_y 1 count).map ApplyResult.ok
  | MFace.X =>
    (forRange (fun i c2 => c2.turn_layer_x i count)
      c.divisions
      ((c.turn_face CubeFace.Right count).turn_face CubeFace.Left (4 - count))).map
      ApplyResult.ok
  | MFace.Y =>
    (forRange (fun i c2 => c2.turn_layer_y i count)
      c.divisions
      ((c.turn_face CubeFace.Up count).turn_face CubeFace.Down (4 - count))).map
      ApplyResult.ok
  | MFace.Z =>
    (forRange (fun i c2 => c2.turn_layer_z i count)
      c.divisions
      ((c.turn_face CubeFace.Front count).turn_face CubeFace.Back (4 - count))).map
      ApplyResult.ok

/-- Observable state equality: equal division counts and equal face arrays
(all `N²` entries of all six grids). -/
def Cube.EqState (a b : Cube) : Prop :=
  a.divisions = b.divisions ∧
    ∀ f : CubeFace, ∀ p : Nat, p < a.divisions * a.divisions → a.faces f p = b.faces f p

/-! ## The move-notation parser (`src/notation.rs`) -/

/-- Parse errors (`MovementParseError` in `notation.rs`). -/
inductive MovementParseError where
  | InvalidFace (c : Char)
deriving DecidableEq, Repr

deriving instance DecidableEq for Except

/-- The first `match` of `Movements::next` (notation.rs:113-121): classify
the face letter, returning the canonical (uppercase) face letter and the
initial layer count, or `none` for an unrecognized letter. -/
def classifyFace (ch : Char) : Option (Char × Nat) :=
  match ch with
  | 'F' | 'S' | 'B' | 'L' | 'M' | 'R' | 'U' | 'E' | 'D' => some (ch, 1)
  | 'f' | 'b' | 'l' | 'r' | 'u' | 'd' => some (ch.toUpper, 2)
  | 'x' | 'y' | 'z' => some (ch, 0)
  | _ => none

/-- The final `match` of `Movements::next` (notation.rs:150-164), building
the target from the face letter and layer count.  The catch-all arm is
`unreachable!` in the source; `classifyFace` only ever supplies the twelve
listed letters. -/
def faceTarget (ch : Char) (layers : Nat) : MFace :=
  match ch with
  | 'x' => MFace.X
  | 'y' => MFace.Y
  | 'z' => MFace.Z
  | 'F' => MFace.Front layers
  | 'S' => MFace.Standing
  | 'B' => MFace.Back layers
  | 'L' => MFace.Left layers
  | 'M' => MFace.Middle
  | 'R' => MFace.Right layers
  | 'U' => MFace.Up layers
  | 'E' => MFace.Equational
  | 'D' => MFace.Down layers
  | _ => MFace.X

/-- Rust's `char::is_whitespace`: the Unicode `White_Space` property
(U+0009–U+000D, U+0020, U+0085, U+00A0, U+1680, U+2000–U+200A, U+2028,
U+2029, U+202F, U+205F, U+3000). -/
def isRustWhitespace (c : Char) : Bool :=
  let n := c.toNat
  (0x09 ≤ n && n ≤ 0x0D) || n = 0x20 || n = 0x85 || n = 0xA0 || n = 0x1680 ||
  (0x2000 ≤ n && n ≤ 0x200A) || n = 0x2028 || n = 0x2029 || n = 0x202F ||
  n = 0x205F || n = 0x3000

/-- The wide-marker step of `Movements::next` (notation.rs:123-135): only
when the face letter carried layer count 1, skip whitespace and consume an
optional `w`, promoting the depth to 2. -/
def parseWide (layers0 : Nat) (rest : List Char) : Nat × List Char :=
  if layers0 = 1 then
    match rest.dropWhile isRustWhitespace with
    | 'w' :: r2 => (2, r2)
    | r2 => (1, r2)
  else (layers0, rest)

/-- The direction-suffix step of `Movements::next` (notation.rs:137-148):
skip whitespace, then consume an optional `2` (half turn) or apostrophe
(counterclockwise); anything else is left unconsumed and the direction
defaults to clockwise. -/
def parseDirection (rest : List Char) : Rotation × List Char :=
  match rest.dropWhile isRustWhitespace with
  | '2' :: r3 => (Rotation.Turnover, r3)
  | '\'' :: r3 => (Rotation.Counterclockwise, r3)
  | r3 => (Rotation.Clockwise, r3)

/-- `Movements::next` (notation.rs:111-167) over the remaining character
list: `none` when input is exhausted, otherwise one parse result and the
rest of the input.  `skip_whitespaces` (notation.rs:101-105) is
`dropWhile isRustWhitespace`. -/
def parseNext? (s : List Char) : Option (Except MovementParseError Movement × List Char) :=
  match s.dropWhile isRustWhitespace with
  | [] => none
  | ch :: rest =>
    match classifyFace ch with
    | none => some (Except.error (MovementParseError.InvalidFace ch), rest)
    | some (faceChar, layers0) =>
      let (layers, rest1) := parseWide layers0 rest
      let (direction, rest3) := parseDirection rest1
      some (Except.ok { target := faceTarget faceChar layers, direction := direction }, rest3)

/-- Driving the `Movements` iterator to exhaustion, with explicit fuel for
structural recursion.  Every `next` call consumes at least the face letter,
so fuel `s.length` (as used by `movements`) never runs out early. -/
def movementsAux : Nat → List Char → List (Except MovementParseError Movement)
  | 0, _ => []
  | fuel + 1, s =>
    match parseNext? s with
    | none => []
    | some (r, rest) => r :: movementsAux fuel rest

/-- The full parse sequence of `Movements::new(source)` collected into a
list. -/
def movements (source : List Char) : List (Except MovementParseError Movement) :=
  movementsAux source.length source


/-! ## Coordinates and cell maps

A position `p < n²` of a row-major grid is the pair `(x, y) = (p % n, p / n)`
with `p = y * n + x`.  A *cell* is a face together with such a coordinate
pair.  Each engine primitive turns out to read, for every cell it writes,
from a single source cell given by an explicit *cell map*; all algebraic
claims reduce to arithmetic of these maps. -/

abbrev Cell : Type := CubeFace × Nat × Nat

/-- The entry of the cube at a cell. -/
def CellVal (c : Cube) : Cell → CubeFace
  | (f, x, y) => c.faces f (y * c.divisions + x)

/-- Both coordinates in range. -/
def ValidCell (n : Nat) : Cell → Prop
  | (_, x, y) => x < n ∧ y < n

/-- A cell map sending in-range cells to in-range cells. -/
def PreservesValid (n : Nat) (σ : Cell → Cell) : Prop :=
  ∀ e : Cell, ValidCell n e → ValidCell n (σ e)

theorem enc_lt {n x y : Nat} (hx : x < n) (hy : y < n) : y * n + x < n * n := by
  have h1 : y * n + x < (y + 1) * n := by
    rw [Nat.succ_mul]; omega
  have h2 : (y + 1) * n ≤ n * n := Nat.mul_le_mul_right n hy
  omega

theorem enc_mod {n x y : Nat} (hx : x < n) : (y * n + x) % n = x := by
  rw [Nat.add_comm, Nat.add_mul_mod_self_right, Nat.mod_eq_of_lt hx]

theorem enc_div {n x y : Nat} (hx : x < n) : (y * n + x) / n = y := by
  have hn : 0 < n := Nat.pos_of_ne_zero (by omega)
  rw [Nat.add_comm, Nat.add_mul_div_right _ _ hn, Nat.div_eq_of_lt hx]
  omega

/-- Reading map of a single `turn_face` step on face `tf`: the new entry at
`(x, y)` of that face is the old entry at `(y, n-1-x)`. -/
def faceMap (tf : CubeFace) (n : Nat) : Cell → Cell
  | (f, x, y) => if f = tf then (f, y, n - 1 - x) else (f, x, y)

/-- Reading map of one `turn_layer_x_step` at column `j`. -/
def xMap (n j : Nat) : Cell → Cell
  | (CubeFace.Up, x, y) =>
    if x = j then (CubeFace.Front, j, y) else (CubeFace.Up, x, y)
  | (CubeFace.Back, x, y) =>
    if x = n - 1 - j then (CubeFace.Up, j, n - 1 - y) else (CubeFace.Back, x, y)
  | (CubeFace.Down, x, y) =>
    if x = j then (CubeFace.Back, n - 1 - j, n - 1 - y) else (CubeFace.Down, x, y)
  | (CubeFace.Front, x, y) =>
    if x = j then (CubeFace.Down, j, y) else (CubeFace.Front, x, y)
  | e => e

/-- Reading map of one `turn_layer_y_step` at row `r`. -/
def yMap (n r : Nat) : Cell → Cell
  | (CubeFace.Front, x, y) =>
    if y = r then (CubeFace.Right, x, r) else (CubeFace.Front, x, y)
  | (CubeFace.Left, x, y) =>
    if y = r then (CubeFace.Front, x, r) else (CubeFace.Left, x, y)
  | (CubeFace.Back, x, y) =>
    if y = r then (CubeFace.Left, x, r) else (CubeFace.Back, x, y)
  | (CubeFace.Right, x, y) =>
    if y = r then (CubeFace.Back, x, r) else (CubeFace.Right, x, y)
  | e => e

/-- Reading map of one `turn_layer_z_step` at up-row `r`. -/
def zMap (n r : Nat) : Cell → Cell
  | (CubeFace.Right, x, y) =>
    if x = n - 1 - r then (CubeFace.Up, y, r) else (CubeFace.Right, x, y)
  | (CubeFace.Down, x, y) =>
    if y = n - 1 - r then (CubeFace.Right, n - 1 - r, n - 1 - x) else (CubeFace.Down, x, y)
  | (CubeFace.Left, x, y) =>
    if x = r then (CubeFace.Down, y, n - 1 - r) else (CubeFace.Left, x, y)
  | (CubeFace.Up, x, y) =>
    if y = r then (CubeFace.Left, r, n - 1 - x) else (CubeFace.Up, x, y)
  | e => e

/-- `op` succeeds on every cube of division count `n`, keeps the division
count, and reads every in-range cell through the cell map `σ`. -/
def Tracks (n : Nat) (op : Cube → Option Cube) (σ : Cell → Cell) : Prop :=
  ∀ c : Cube, c.divisions = n →
    ∃ c2, op c = some c2 ∧ c2.divisions = n ∧
      ∀ e : Cell, ValidCell n e → CellVal c2 e = CellVal c (σ e)

theorem Tracks.comp {n : Nat} {op1 op2 : Cube → Option Cube} {σ1 σ2 : Cell → Cell}
    (h1 : Tracks n op1 σ1) (h2 : Tracks n op2 σ2) (hp : PreservesValid n σ2) :
    Tracks n (fun c => (op1 c).bind op2) (σ1 ∘ σ2) := by
  intro c hc
  obtain ⟨c1, e1, d1, v1⟩ := h1 c hc
  obtain ⟨c2, e2, d2, v2⟩ := h2 c1 d1
  refine ⟨c2, by simp [e1, e2], d2, fun e he => ?_⟩
  rw [v2 e he, v1 _ (hp e he)]
  rfl

theorem Tracks.congr {n : Nat} {op : Cube → Option Cube} {σ τ : Cell → Cell}
    (h : Tracks n op σ) (hστ : ∀ e, ValidCell n e → σ e = τ e) :
    Tracks n op τ := by
  intro c hc
  obtain ⟨c2, e2, d2, v2⟩ := h c hc
  exact ⟨c2, e2, d2, fun e he => by rw [v2 e he, hστ e he]⟩

theorem PreservesValid.iterate {n : Nat} {σ : Cell → Cell}
    (hp : PreservesValid n σ) (k : Nat) : PreservesValid n (σ^[k]) := by
  induction k with
  | zero => exact fun e he => he
  | succ m ih =>
    intro e he
    rw [Function.iterate_succ_apply']
    exact hp _ (ih e he)

theorem Tracks.iterateM {n : Nat} {op : Cube → Option Cube} {σ : Cell → Cell}
    (h : Tracks n op σ) (hp : PreservesValid n σ) (k : Nat) :
    Tracks n (iterateM op k) (σ^[k]) := by
  induction k with
  | zero => exact fun c hc => ⟨c, rfl, hc, fun e _ => rfl⟩
  | succ k ih =>
    have hcmp := h.comp ih (hp.iterate k)
    intro c hc
    obtain ⟨c2, e2, d2, v2⟩ := hcmp c hc
    refine ⟨c2, e2, d2, fun e he => ?_⟩
    rw [v2 e he]
    have hit : (σ ∘ σ^[k]) e = σ^[k + 1] e := (Function.iterate_succ_apply' σ k e).symm
    rw [hit]

/-- Composite reading map of the loop `for i in 0..l`, whose iteration `i`
has reading map `σ i`. -/
def prodMap (σ : Nat → Cell → Cell) : Nat → Cell → Cell
  | 0 => id
  | l + 1 => prodMap σ l ∘ σ l

theorem PreservesValid.prodMap {n : Nat} {σ : Nat → Cell → Cell} {l : Nat}
    (hp : ∀ i, i < l → PreservesValid n (σ i)) :
    PreservesValid n (prodMap σ l) := by
  induction l with
  | zero => exact fun e he => he
  | succ m ih =>
    intro e he
    exact ih (fun i hi => hp i (by omega)) _ (hp m (by omega) e he)

theorem Tracks.forRange {n : Nat} {f : Nat → Cube → Option Cube} {σ : Nat → Cell → Cell}
    {l : Nat}
    (h : ∀ i, i < l → Tracks n (f i) (σ i))
    (hp : ∀ i, i < l → PreservesValid n (σ i)) :
    Tracks n (forRange f l) (prodMap σ l) := by
  induction l with
  | zero => exact fun c hc => ⟨c, rfl, hc, fun e _ => rfl⟩
  | succ m ih =>
    have hm := ih (fun i hi => h i (by omega)) (fun i hi => hp i (by omega))
    have := hm.comp (h m (by omega)) (hp m (by omega))
    intro c hc
    obtain ⟨c2, e2, d2, v2⟩ := this c hc
    exact ⟨c2, e2, d2, v2⟩

/-! ## Closed forms of the primitives -/

theorem sub?_some {a b : Nat} (h : b ≤ a) : sub? a b = some (a - b) := if_pos h

theorem extract_row_len {c : Cube} {f : CubeFace} {row : Nat} (h : row < c.divisions) :
    (c.extract_row f row).len = c.divisions := by
  have h2 : (row + 1) * c.divisions ≤ c.divisions * c.divisions :=
    Nat.mul_le_mul_right _ h
  rw [Nat.succ_mul] at h2
  simp only [Cube.extract_row]
  rw [Nat.min_eq_left (by omega)]

theorem extract_column_len {c : Cube} {f : CubeFace} {col : Nat} (h : col < c.divisions) :
    (c.extract_column f col).len = c.divisions := by
  simp only [Cube.extract_column]
  rw [if_pos h]

theorem swap_to_row_some {c : Cube} {tf : CubeFace} {row : Nat} {v : Strip} {inv : Bool}
    (hlen : v.len = c.divisions) (hrow : row < c.divisions) :
    c.swap_to_row tf row v inv =
      some (c.extract_row tf row,
        { c with
          faces := setFace c.faces tf (fun p =>
            if row * c.divisions ≤ p ∧ p < row * c.divisions + c.divisions then
              v.vals
                (if inv then c.divisions - 1 - (p - row * c.divisions)
                 else p - row * c.divisions)
            else c.faces tf p) }) := by
  simp only [Cube.swap_to_row]
  rw [if_pos ⟨hlen, Or.inr hrow⟩]

theorem swap_to_column_some {c : Cube} {tf : CubeFace} {col : Nat} {v : Strip} {inv : Bool}
    (hlen : v.len = c.divisions) (hcol : col < c.divisions) :
    c.swap_to_column tf col v inv =
      some (c.extract_column tf col,
        { c with
          faces := setFace c.faces tf (fun p =>
            if p % c.divisions = col ∧ p < c.divisions * c.divisions then
              v.vals (if inv then c.divisions - 1 - p / c.divisions else p / c.divisions)
            else c.faces tf p) }) := by
  simp only [Cube.swap_to_column]
  rw [if_pos ⟨hlen, Or.inr hcol⟩]

theorem row_cond_iff {n x y r : Nat} (hx : x < n) (hy : y < n) :
    (r * n ≤ y * n + x ∧ y * n + x < r * n + n) ↔ y = r := by
  constructor
  · rintro ⟨h1, h2⟩
    by_contra hne
    rcases Nat.lt_or_ge y r with hlt | hge
    · have h3 : (y + 1) * n ≤ r * n := Nat.mul_le_mul_right n hlt
      rw [Nat.succ_mul] at h3
      omega
    · have hgt : r < y := by omega
      have h3 : (r + 1) * n ≤ y * n := Nat.mul_le_mul_right n hgt
      rw [Nat.succ_mul] at h3
      omega
  · rintro rfl
    omega

theorem tracks_turn_layer_y_step {n r : Nat} (hr : r < n) :
    Tracks n (fun c => c.turn_layer_y_step r) (yMap n r) := by
  intro c hc
  subst hc
  simp only [Cube.turn_layer_y_step, Option.bind_eq_bind, swap_to_row_some, extract_row_len,
    hr, Option.some_bind]
  refine ⟨_, rfl, rfl, ?_⟩
  rintro ⟨f, x, y⟩ ⟨hx, hy⟩
  cases f <;>
    simp only [CellVal, yMap, setFace, Cube.extract_row, reduceCtorEq, if_false, if_true,
      reduceIte, row_cond_iff hx hy] <;>
    by_cases hyr : y = r <;>
    simp [hyr, row_cond_iff hx hy, CellVal, Cube.extract_row]

theorem tracks_turn_layer_x_step {n j : Nat} (hj : j < n) :
    Tracks n (fun c => c.turn_layer_x_step j) (xMap n j) := by
  intro c hc
  subst hc
  have h1 : 1 ≤ c.divisions := by omega
  have h2 : j ≤ c.divisions - 1 := by omega
  have h3 : c.divisions - 1 - j < c.divisions := by omega
  simp only [Cube.turn_layer_x_step, Option.bind_eq_bind, swap_to_column_some,
    extract_column_len, hj, h3, sub?_some h1, sub?_some h2, Option.some_bind]
  refine ⟨_, rfl, rfl, ?_⟩
  rintro ⟨f, x, y⟩ ⟨hx, hy⟩
  have hlt := enc_lt hx hy
  cases f with
  | Front =>
    simp only [CellVal, xMap, setFace, Cube.extract_column, reduceCtorEq, if_false, if_true,
      reduceIte, enc_mod hx, enc_div hx, hlt, and_true]
    by_cases hxj : x = j <;> simp [hxj, CellVal, enc_mod hx, enc_div hx, hlt]
  | Back =>
    simp only [CellVal, xMap, setFace, Cube.extract_column, reduceCtorEq, if_false, if_true,
      reduceIte, enc_mod hx, enc_div hx, hlt, and_true]
    by_cases hxj : x = c.divisions - 1 - j <;>
      simp [hxj, CellVal, enc_mod hx, enc_div hx, hlt]
  | Up =>
    simp only [CellVal, xMap, setFace, Cube.extract_column, reduceCtorEq, if_false, if_true,
      reduceIte, enc_mod hx, enc_div hx, hlt, and_true]
    by_cases hxj : x = j <;> simp [hxj, CellVal, enc_mod hx, enc_div hx, hlt]
  | Down =>
    simp only [CellVal, xMap, setFace, Cube.extract_column, reduceCtorEq, if_false, if_true,
      reduceIte, enc_mod hx, enc_div hx, hlt, and_true]
    by_cases hxj : x = j <;> simp [hxj, CellVal, enc_mod hx, enc_div hx, hlt]
  | Left =>
    simp [CellVal, xMap, setFace]
  | Right =>
    simp [CellVal, xMap, setFace]

theorem tracks_turn_layer_z_step {n r : Nat} (hr : r < n) :
    Tracks n (fun c => c.turn_layer_z_step r) (zMap n r) := by
  intro c hc
  subst hc
  have h1 : 1 ≤ c.divisions := by omega
  have h2 : r ≤ c.divisions - 1 := by omega
  have h3 : c.divisions - 1 - r < c.divisions := by omega
  simp only [Cube.turn_layer_z_step, Option.bind_eq_bind, swap_to_column_some,
    swap_to_row_some, extract_column_len, extract_row_len, hr, h3,
    sub?_some h1, sub?_some h2, Option.some_bind]
  refine ⟨_, rfl, rfl, ?_⟩
  rintro ⟨f, x, y⟩ ⟨hx, hy⟩
  have hlt := enc_lt hx hy
  cases f with
  | Right =>
    simp only [CellVal, zMap, setFace, Cube.extract_column, Cube.extract_row, reduceCtorEq,
      if_false, if_true, reduceIte, enc_mod hx, enc_div hx, hlt, and_true,
      row_cond_iff hx hy]
    by_cases hxr : x = c.divisions - 1 - r <;>
      simp [hxr, CellVal, enc_mod hx, enc_div hx, hlt]
  | Down =>
    simp only [CellVal, zMap, setFace, Cube.extract_column, Cube.extract_row, reduceCtorEq,
      if_false, if_true, reduceIte, enc_mod hx, enc_div hx, hlt, and_true,
      row_cond_iff hx hy]
    by_cases hyr : y = c.divisions - 1 - r <;>
      simp [hyr, CellVal, enc_mod hx, enc_div hx, hlt]
  | Left =>
    simp only [CellVal, zMap, setFace, Cube.extract_column, Cube.extract_row, reduceCtorEq,
      if_false, if_true, reduceIte, enc_mod hx, enc_div hx, hlt, and_true,
      row_cond_iff hx hy]
    by_cases hxr : x = r <;> simp [hxr, CellVal, enc_mod hx, enc_div hx, hlt]
  | Up =>
    simp only [CellVal, zMap, setFace, Cube.extract_column, Cube.extract_row, reduceCtorEq,
      if_false, if_true, reduceIte, enc_mod hx, enc_div hx, hlt, and_true,
      row_cond_iff hx hy]
    by_cases hyr : y = r <;> simp [hyr, CellVal, enc_mod hx, enc_div hx, hlt]
  | Front =>
    simp [CellVal, zMap, setFace]
  | Back =>
    simp [CellVal, zMap, setFace]

theorem faceMap_ne {tf : CubeFace} {n : Nat} {f : CubeFace} {x y : Nat} (h : f ≠ tf) :
    faceMap tf n (f, x, y) = (f, x, y) := by
  simp [faceMap, h]

theorem faceMap_iterate_ne {tf : CubeFace} {n : Nat} {f : CubeFace} {x y : Nat} (h : f ≠ tf)
    (k : Nat) : (faceMap tf n)^[k] (f, x, y) = (f, x, y) := by
  induction k with
  | zero => rfl
  | succ m ih => rw [Function.iterate_succ_apply, faceMap_ne h, ih]

theorem face_transform_coords {n x y : Nat} (hx : x < n) (hy : y < n) :
    face_transform n (y * n + x) = (n - 1 - x) * n + y := by
  simp only [face_transform, enc_mod hx, enc_div hx]
  have h : n - x - 1 = n - 1 - x := by omega
  rw [h]

theorem turn_face_cellVal (c : Cube) (tf : CubeFace) (k : Nat) :
    ∀ e : Cell, ValidCell c.divisions e →
      CellVal (c.turn_face tf k) e = CellVal c ((faceMap tf c.divisions)^[k] e) := by
  induction k with
  | zero =>
    rintro ⟨f, x, y⟩ he
    simp only [Cube.turn_face, Function.iterate_zero, id, CellVal, setFace,
      Function.iterate_zero]
    by_cases h : f = tf <;> simp [h]
  | succ m ih =>
    rintro ⟨f, x, y⟩ ⟨hx, hy⟩
    by_cases h : f = tf
    · subst h
      have hstep :
          CellVal (c.turn_face f (m + 1)) (f, x, y) =
            CellVal (c.turn_face f m) (f, y, c.divisions - 1 - x) := by
        simp only [Cube.turn_face, CellVal, setFace, eq_self_iff_true, ite_true,
          Function.iterate_succ_apply']
        rw [face_transform_coords hx hy]
      rw [hstep, ih (f, y, c.divisions - 1 - x) ⟨hy, by omega⟩,
        Function.iterate_succ_apply]
      have hfm : faceMap f c.divisions (f, x, y) = (f, y, c.divisions - 1 - x) := by
        simp [faceMap]
      rw [hfm]
    · rw [faceMap_iterate_ne h]
      simp [Cube.turn_face, CellVal, setFace, if_neg h]

theorem tracks_turn_face (n : Nat) (tf : CubeFace) (k : Nat) :
    Tracks n (fun c => some (c.turn_face tf k)) ((faceMap tf n)^[k]) := by
  intro c hc
  subst hc
  exact ⟨_, rfl, rfl, turn_face_cellVal c tf k⟩

/-! ## Validity preservation of the cell maps -/

theorem preserves_faceMap {n : Nat} (tf : CubeFace) :
    PreservesValid n (faceMap tf n) := by
  rintro ⟨f, x, y⟩ ⟨hx, hy⟩
  by_cases h : f = tf <;> simp [faceMap, h, ValidCell] <;> omega

theorem preserves_xMap {n j : Nat} (hj : j < n) : PreservesValid n (xMap n j) := by
  rintro ⟨f, x, y⟩ ⟨hx, hy⟩
  cases f <;> simp only [xMap] <;> (try split_ifs) <;> simp [ValidCell] <;> omega

theorem preserves_yMap {n r : Nat} (hr : r < n) : PreservesValid n (yMap n r) := by
  rintro ⟨f, x, y⟩ ⟨hx, hy⟩
  cases f <;> simp only [yMap] <;> (try split_ifs) <;> simp [ValidCell] <;> omega

theorem preserves_zMap {n r : Nat} (hr : r < n) : PreservesValid n (zMap n r) := by
  rintro ⟨f, x, y⟩ ⟨hx, hy⟩
  cases f <;> simp only [zMap] <;> (try split_ifs) <;> simp [ValidCell] <;> omega

/-! ## Algebra of the cell maps -/

theorem faceMap_four {n : Nat} (tf : CubeFace) :
    ∀ e : Cell, ValidCell n e → (faceMap tf n)^[4] e = e := by
  rintro ⟨f, x, y⟩ ⟨hx, hy⟩
  show faceMap tf n (faceMap tf n (faceMap tf n (faceMap tf n (f, x, y)))) = (f, x, y)
  by_cases h : f = tf
  · subst h
    simp [faceMap, Prod.ext_iff]
    omega
  · simp [faceMap, h]

theorem xMap_four {n j : Nat} (hj : j < n) :
    ∀ e : Cell, ValidCell n e → (xMap n j)^[4] e = e := by
  rintro ⟨f, x, y⟩ ⟨hx, hy⟩
  show xMap n j (xMap n j (xMap n j (xMap n j (f, x, y)))) = (f, x, y)
  cases f with
  | Up =>
    by_cases h : x = j
    · subst h; simp [xMap, Prod.ext_iff]; omega
    · simp [xMap, h]
  | Front =>
    by_cases h : x = j
    · subst h; simp [xMap, Prod.ext_iff]; omega
    · simp [xMap, h]
  | Down =>
    by_cases h : x = j
    · subst h; simp [xMap, Prod.ext_iff]; omega
    · simp [xMap, h]
  | Back =>
    by_cases h : x = n - 1 - j
    · subst h; simp [xMap, Prod.ext_iff]; omega
    · simp [xMap, h]
  | Left => simp [xMap]
  | Right => simp [xMap]

theorem yMap_four {n r : Nat} (hr : r < n) :
    ∀ e : Cell, ValidCell n e → (yMap n r)^[4] e = e := by
  rintro ⟨f, x, y⟩ ⟨hx, hy⟩
  show yMap n r (yMap n r (yMap n r (yMap n r (f, x, y)))) = (f, x, y)
  cases f with
  | Front =>
    by_cases h : y = r
    · subst h; simp [yMap]
    · simp [yMap, h]
  | Left =>
    by_cases h : y = r
    · subst h; simp [yMap]
    · simp [yMap, h]
  | Back =>
    by_cases h : y = r
    · subst h; simp [yMap]
    · simp [yMap, h]
  | Right =>
    by_cases h : y = r
    · subst h; simp [yMap]
    · simp [yMap, h]
  | Up => simp [yMap]
  | Down => simp [yMap]

theorem zMap_four {n r : Nat} (hr : r < n) :
    ∀ e : Cell, ValidCell n e → (zMap n r)^[4] e = e := by
  rintro ⟨f, x, y⟩ ⟨hx, hy⟩
  show zMap n r (zMap n r (zMap n r (zMap n r (f, x, y)))) = (f, x, y)
  cases f with
  | Right =>
    by_cases h : x = n - 1 - r
    · subst h; simp [zMap, Prod.ext_iff]; omega
    · simp [zMap, h]
  | Down =>
    by_cases h : y = n - 1 - r
    · subst h; simp [zMap, Prod.ext_iff]; omega
    · simp [zMap, h]
  | Left =>
    by_cases h : x = r
    · subst h; simp [zMap, Prod.ext_iff]; omega
    · simp [zMap, h]
  | Up =>
    by_cases h : y = r
    · subst h; simp [zMap, Prod.ext_iff]; omega
    · simp [zMap, h]
  | Front => simp [zMap]
  | Back => simp [zMap]

/-- Pointwise commutation of two cell maps. -/
def CommuteMaps (σ τ : Cell → Cell) : Prop :=
  ∀ e : Cell, σ (τ e) = τ (σ e)

theorem CommuteMaps.symm {σ τ : Cell → Cell} (h : CommuteMaps σ τ) : CommuteMaps τ σ :=
  fun e => (h e).symm

theorem CommuteMaps.iterate_left {σ τ : Cell → Cell} (h : CommuteMaps σ τ) (k : Nat) :
    CommuteMaps (σ^[k]) τ := by
  induction k with
  | zero => intro e; rfl
  | succ m ih =>
    intro e
    rw [Function.iterate_succ_apply', Function.iterate_succ_apply', ih e, h (σ^[m] e)]

theorem CommuteMaps.iterate_both {σ τ : Cell → Cell} (h : CommuteMaps σ τ) (a b : Nat) :
    CommuteMaps (σ^[a]) (τ^[b]) :=
  (((h.iterate_left a).symm.iterate_left b).symm)

theorem comm_faceMap_faceMap {n : Nat} {t1 t2 : CubeFace} (h : t1 ≠ t2) :
    CommuteMaps (faceMap t1 n) (faceMap t2 n) := by
  rintro ⟨f, x, y⟩
  by_cases h1 : f = t1 <;> by_cases h2 : f = t2 <;>
    simp_all [faceMap]

theorem comm_xMap_xMap {n j j' : Nat} (hj : j < n) (hj' : j' < n) (hne : j ≠ j') :
    CommuteMaps (xMap n j) (xMap n j') := by
  rintro ⟨f, x, y⟩
  have hb : n - 1 - j ≠ n - 1 - j' := by omega
  cases f <;> simp only [xMap] <;> split_ifs <;>
    simp_all [xMap] <;> omega

theorem comm_yMap_yMap {n r r' : Nat} (hne : r ≠ r') :
    CommuteMaps (yMap n r) (yMap n r') := by
  rintro ⟨f, x, y⟩
  cases f <;> simp only [yMap] <;> split_ifs <;>
    simp_all [yMap] <;> omega

theorem comm_zMap_zMap {n r r' : Nat} (hr : r < n) (hr' : r' < n) (hne : r ≠ r') :
    CommuteMaps (zMap n r) (zMap n r') := by
  rintro ⟨f, x, y⟩
  have hb : n - 1 - r ≠ n - 1 - r' := by omega
  cases f <;> simp only [zMap] <;> split_ifs <;>
    simp_all [zMap] <;> omega

theorem comm_faceMap_xMap {n j : Nat} {tf : CubeFace} (h1 : tf ≠ CubeFace.Front)
    (h2 : tf ≠ CubeFace.Up) (h3 : tf ≠ CubeFace.Back) (h4 : tf ≠ CubeFace.Down) :
    CommuteMaps (faceMap tf n) (xMap n j) := by
  rintro ⟨f, x, y⟩
  cases f <;> simp only [xMap, faceMap] <;> split_ifs <;>
    simp_all [xMap, faceMap]

theorem comm_faceMap_yMap {n r : Nat} {tf : CubeFace} (h1 : tf ≠ CubeFace.Front)
    (h2 : tf ≠ CubeFace.Left) (h3 : tf ≠ CubeFace.Back) (h4 : tf ≠ CubeFace.Right) :
    CommuteMaps (faceMap tf n) (yMap n r) := by
  rintro ⟨f, x, y⟩
  cases f <;> simp only [yMap, faceMap] <;> split_ifs <;>
    simp_all [yMap, faceMap]

theorem comm_faceMap_zMap {n r : Nat} {tf : CubeFace} (h1 : tf ≠ CubeFace.Right)
    (h2 : tf ≠ CubeFace.Down) (h3 : tf ≠ CubeFace.Left) (h4 : tf ≠ CubeFace.Up) :
    CommuteMaps (faceMap tf n) (zMap n r) := by
  rintro ⟨f, x, y⟩
  cases f <;> simp only [zMap, faceMap] <;> split_ifs <;>
    simp_all [zMap, faceMap]

theorem prodMap_comm {σ : Cell → Cell} {μ : Nat → Cell → Cell} {l : Nat}
    (h : ∀ i, i < l → CommuteMaps σ (μ i)) : CommuteMaps σ (prodMap μ l) := by
  induction l with
  | zero => intro e; rfl
  | succ m ih =>
    intro e
    show σ (prodMap μ m (μ m e)) = prodMap μ m (μ m (σ e))
    rw [ih (fun i hi => h i (by omega)) (μ m e), h m (by omega) e]

theorem prodMap_pow_add {μ : Nat → Cell → Cell} {l : Nat} (a b : Nat)
    (hcomm : ∀ i k, i < l → k < l → i ≠ k → CommuteMaps (μ i) (μ k)) :
    ∀ e : Cell,
      prodMap (fun i => (μ i)^[a]) l (prodMap (fun i => (μ i)^[b]) l e) =
        prodMap (fun i => (μ i)^[a + b]) l e := by
  induction l with
  | zero => intro e; rfl
  | succ m ih =>
    intro e
    show prodMap (fun i => (μ i)^[a]) m ((μ m)^[a]
        (prodMap (fun i => (μ i)^[b]) m ((μ m)^[b] e))) =
      prodMap (fun i => (μ i)^[a + b]) m ((μ m)^[a + b] e)
    have hcm : CommuteMaps ((μ m)^[a]) (prodMap (fun i => (μ i)^[b]) m) := by
      apply prodMap_comm
      intro i hi
      exact (hcomm m i (by omega) (by omega) (by omega)).iterate_both a b
    rw [hcm ((μ m)^[b] e)]
    rw [← Function.iterate_add_apply]
    exact ih (fun i k hi hk hik => hcomm i k (by omega) (by omega) hik) _

theorem prodMap_id_valid {n : Nat} {ν : Nat → Cell → Cell} {l : Nat}
    (hid : ∀ i, i < l → ∀ e : Cell, ValidCell n e → ν i e = e) :
    ∀ e : Cell, ValidCell n e → prodMap ν l e = e := by
  induction l with
  | zero => intro e _; rfl
  | succ m ih =>
    intro e he
    show prodMap ν m (ν m e) = e
    rw [hid m (by omega) e he]
    exact ih (fun i hi => hid i (by omega)) e he

/-! ## Per-target composite reading maps -/

/-- Layer depth of a face-turn target. -/
def depth? : MFace → Option Nat
  | MFace.Front l => some l
  | MFace.Back l => some l
  | MFace.Left l => some l
  | MFace.Right l => some l
  | MFace.Up l => some l
  | MFace.Down l => some l
  | _ => none

/-- Whether the target is one of the three slice moves. -/
def isSlice : MFace → Bool
  | MFace.Standing => true
  | MFace.Middle => true
  | MFace.Equational => true
  | _ => false

/-- The side condition under which `apply` returns `Ok` (division count `n`):
depth within range for face turns, `n = 3` for slices, nothing for whole-cube
turns. -/
def OkCond (n : Nat) : MFace → Prop
  | MFace.Front l => l ≤ n
  | MFace.Back l => l ≤ n
  | MFace.Left l => l ≤ n
  | MFace.Right l => l ≤ n
  | MFace.Up l => l ≤ n
  | MFace.Down l => l ≤ n
  | MFace.Standing => n = 3
  | MFace.Middle => n = 3
  | MFace.Equational => n = 3
  | MFace.X => True
  | MFace.Y => True
  | MFace.Z => True

/-- The composite reading map of a successful `apply` with rotation count
`count`, assembled from the reading maps of the primitives in the order the
source executes them. -/
def applyMap (n : Nat) (t : MFace) (count : Nat) : Cell → Cell :=
  match t with
  | MFace.Front l =>
    (faceMap CubeFace.Front n)^[count] ∘ prodMap (fun i => (zMap n (n - 1 - i))^[count]) l
  | MFace.Back l =>
    (faceMap CubeFace.Back n)^[count] ∘ prodMap (fun i => (zMap n i)^[4 - count]) l
  | MFace.Left l =>
    (faceMap CubeFace.Left n)^[count] ∘ prodMap (fun i => (xMap n i)^[4 - count]) l
  | MFace.Right l =>
    (faceMap CubeFace.Right n)^[count] ∘ prodMap (fun i => (xMap n (n - 1 - i))^[count]) l
  | MFace.Up l =>
    (faceMap CubeFace.Up n)^[count] ∘ prodMap (fun i => (yMap n i)^[count]) l
  | MFace.Down l =>
    (faceMap CubeFace.Down n)^[count] ∘ prodMap (fun i => (yMap n (n - 1 - i))^[4 - count]) l
  | MFace.Standing => (zMap n 1)^[count]
  | MFace.Middle => (xMap n 1)^[4 - count]
  | MFace.Equational => (yMap n 1)^[count]
  | MFace.X =>
    (faceMap CubeFace.Right n)^[count] ∘ (faceMap CubeFace.Left n)^[4 - count] ∘
      prodMap (fun i => (xMap n i)^[count]) n
  | MFace.Y =>
    (faceMap CubeFace.Up n)^[count] ∘ (faceMap CubeFace.Down n)^[4 - count] ∘
      prodMap (fun i => (yMap n i)^[count]) n
  | MFace.Z =>
    (faceMap CubeFace.Front n)^[count] ∘ (faceMap CubeFace.Back n)^[4 - count] ∘
      prodMap (fun i => (zMap n i)^[count]) n

theorem tracks_turn_layer_x {n j : Nat} (hj : j < n) (k : Nat) :
    Tracks n (fun c => c.turn_layer_x j k) ((xMap n j)^[k]) := by
  intro c hc
  exact (tracks_turn_layer_x_step hj).iterateM (preserves_xMap hj) k c hc

theorem tracks_turn_layer_y {n r : Nat} (hr : r < n) (k : Nat) :
    Tracks n (fun c => c.turn_layer_y r k) ((yMap n r)^[k]) := by
  intro c hc
  exact (tracks_turn_layer_y_step hr).iterateM (preserves_yMap hr) k c hc

theorem tracks_turn_layer_z {n r : Nat} (hr : r < n) (k : Nat) :
    Tracks n (fun c => c.turn_layer_z r k) ((zMap n r)^[k]) := by
  intro c hc
  exact (tracks_turn_layer_z_step hr).iterateM (preserves_zMap hr) k c hc

theorem tracks_sub_body_x {n l k : Nat} (hl : l ≤ n) (i : Nat) (hi : i < l) :
    Tracks n
      (fun c2 => (sub? c2.divisions 1).bind fun d =>
        (sub? d i).bind fun j => c2.turn_layer_x j k)
      ((xMap n (n - 1 - i))^[k]) := by
  intro c2 hc2
  have h1 : (1 : Nat) ≤ n := by omega
  have h2 : i ≤ n - 1 := by omega
  obtain ⟨c3, e3, d3, v3⟩ := tracks_turn_layer_x (n := n) (j := n - 1 - i) (by omega) k c2 hc2
  refine ⟨c3, ?_, d3, v3⟩
  simp only [hc2, sub?_some h1, sub?_some h2, Option.some_bind]
  exact e3

theorem tracks_sub_body_y {n l k : Nat} (hl : l ≤ n) (i : Nat) (hi : i < l) :
    Tracks n
      (fun c2 => (sub? c2.divisions 1).bind fun d =>
        (sub? d i).bind fun j => c2.turn_layer_y j k)
      ((yMap n (n - 1 - i))^[k]) := by
  intro c2 hc2
  have h1 : (1 : Nat) ≤ n := by omega
  have h2 : i ≤ n - 1 := by omega
  obtain ⟨c3, e3, d3, v3⟩ := tracks_turn_layer_y (n := n) (r := n - 1 - i) (by omega) k c2 hc2
  refine ⟨c3, ?_, d3, v3⟩
  simp only [hc2, sub?_some h1, sub?_some h2, Option.some_bind]
  exact e3

theorem tracks_sub_body_z {n l k : Nat} (hl : l ≤ n) (i : Nat) (hi : i < l) :
    Tracks n
      (fun c2 => (sub? c2.divisions 1).bind fun d =>
        (sub? d i).bind fun j => c2.turn_layer_z j k)
      ((zMap n (n - 1 - i))^[k]) := by
  intro c2 hc2
  have h1 : (1 : Nat) ≤ n := by omega
  have h2 : i ≤ n - 1 := by omega
  obtain ⟨c3, e3, d3, v3⟩ := tracks_turn_layer_z (n := n) (r := n - 1 - i) (by omega) k c2 hc2
  refine ⟨c3, ?_, d3, v3⟩
  simp only [hc2, sub?_some h1, sub?_some h2, Option.some_bind]
  exact e3

/-- Every move whose `OkCond` holds succeeds, and the result reads every
in-range cell of the prior state through `applyMap`. -/
theorem apply_tracks {n : Nat} (t : MFace) (dir : Rotation) (c : Cube)
    (hc : c.divisions = n) (hok : OkCond n t) :
    ∃ c2, c.apply ⟨t, dir⟩ = some (ApplyResult.ok c2) ∧ c2.divisions = n ∧
      ∀ e : Cell, ValidCell n e →
        CellVal c2 e = CellVal c (applyMap n t (rotationCount dir) e) := by
  cases t with
  | Front l =>
    simp only [OkCond] at hok
    have hpres : ∀ i, i < l → PreservesValid n ((zMap n (n - 1 - i))^[rotationCount dir]) :=
      fun i hi => (preserves_zMap (by omega)).iterate _
    have hfr := Tracks.forRange (n := n)
      (f := fun i c2 => (sub? c2.divisions 1).bind fun d =>
        (sub? d i).bind fun j => c2.turn_layer_z j (rotationCount dir))
      (σ := fun i => (zMap n (n - 1 - i))^[rotationCount dir])
      (fun i hi => tracks_sub_body_z hok i hi) hpres
    have hcomp := (tracks_turn_face n CubeFace.Front (rotationCount dir)).comp hfr
      (PreservesValid.prodMap hpres)
    obtain ⟨c2, e2, d2, v2⟩ := hcomp c hc
    refine ⟨c2, ?_, d2, fun e he => v2 e he⟩
    have e2' : forRange
        (fun i c2 => do
          let d ← sub? c2.divisions 1
          let j ← sub? d i
          c2.turn_layer_z j (rotationCount dir))
        l (c.turn_face CubeFace.Front (rotationCount dir)) = some c2 := e2
    show (forRange _ l (c.turn_face CubeFace.Front (rotationCount dir))).map
      ApplyResult.ok = some (ApplyResult.ok c2)
    rw [e2']
    rfl
  | Back l =>
    simp only [OkCond] at hok
    have hpres : ∀ i, i < l → PreservesValid n ((zMap n i)^[4 - rotationCount dir]) :=
      fun i hi => (preserves_zMap (by omega)).iterate _
    have hfr := Tracks.forRange (n := n)
      (f := fun i c2 => c2.turn_layer_z i (4 - rotationCount dir))
      (σ := fun i => (zMap n i)^[4 - rotationCount dir])
      (fun i hi => tracks_turn_layer_z (by omega) _) hpres
    have hcomp := (tracks_turn_face n CubeFace.Back (rotationCount dir)).comp hfr
      (PreservesValid.prodMap hpres)
    obtain ⟨c2, e2, d2, v2⟩ := hcomp c hc
    refine ⟨c2, ?_, d2, fun e he => v2 e he⟩
    have e2' : forRange (fun i c2 => c2.turn_layer_z i (4 - rotationCount dir))
        l (c.turn_face CubeFace.Back (rotationCount dir)) = some c2 := e2
    show (forRange _ l (c.turn_face CubeFace.Back (rotationCount dir))).map
      ApplyResult.ok = some (ApplyResult.ok c2)
    rw [e2']
    rfl
  | Left l =>
    simp only [OkCond] at hok
    have hpres : ∀ i, i < l → PreservesValid n ((xMap n i)^[4 - rotationCount dir]) :=
      fun i hi => (preserves_xMap (by omega)).iterate _
    have hfr := Tracks.forRange (n := n)
      (f := fun i c2 => c2.turn_layer_x i (4 - rotationCount dir))
      (σ := fun i => (xMap n i)^[4 - rotationCount dir])
      (fun i hi => tracks_turn_layer_x (by omega) _) hpres
    have hcomp := (tracks_turn_face n CubeFace.Left (rotationCount dir)).comp hfr
      (PreservesValid.prodMap hpres)
    obtain ⟨c2, e2, d2, v2⟩ := hcomp c hc
    refine ⟨c2, ?_, d2, fun e he => v2 e he⟩
    have e2' : forRange (fun i c2 => c2.turn_layer_x i (4 - rotationCount dir))
        l (c.turn_face CubeFace.Left (rotationCount dir)) = some c2 := e2
    show (forRange _ l (c.turn_face CubeFace.Left (rotationCount dir))).map
      ApplyResult.ok = some (ApplyResult.ok c2)
    rw [e2']
    rfl
  | Right l =>
    simp only [OkCond] at hok
    have hpres : ∀ i, i < l → PreservesValid n ((xMap n (n - 1 - i))^[rotationCount dir]) :=
      fun i hi => (preserves_xMap (by omega)).iterate _
    have hfr := Tracks.forRange (n := n)
      (f := fun i c2 => (sub? c2.divisions 1).bind fun d =>
        (sub? d i).bind fun j => c2.turn_layer_x j (rotationCount dir))
      (σ := fun i => (xMap n (n - 1 - i))^[rotationCount dir])
      (fun i hi => tracks_sub_body_x hok i hi) hpres
    have hcomp := (tracks_turn_face n CubeFace.Right (rotationCount dir)).comp hfr
      (PreservesValid.prodMap hpres)
    obtain ⟨c2, e2, d2, v2⟩ := hcomp c hc
    refine ⟨c2, ?_, d2, fun e he => v2 e he⟩
    have e2' : forRange
        (fun i c2 => do
          let d ← sub? c2.divisions 1
          let j ← sub? d i
          c2.turn_layer_x j (rotationCount dir))
        l (c.turn_face CubeFace.Right (rotationCount dir)) = some c2 := e2
    show (forRange _ l (c.turn_face CubeFace.Right (rotationCount dir))).map
      ApplyResult.ok = some (ApplyResult.ok c2)
    rw [e2']
    rfl
  | Up l =>
    simp only [OkCond] at hok
    have hpres : ∀ i, i < l → PreservesValid n ((yMap n i)^[rotationCount dir]) :=
      fun i hi => (preserves_yMap (by omega)).iterate _
    have hfr := Tracks.forRange (n := n)
      (f := fun i c2 => c2.turn_layer_y i (rotationCount dir))
      (σ := fun i => (yMap n i)^[rotationCount dir])
      (fun i hi => tracks_turn_layer_y (by omega) _) hpres
    have hcomp := (tracks_turn_face n CubeFace.Up (rotationCount dir)).comp hfr
      (PreservesValid.prodMap hpres)
    obtain ⟨c2, e2, d2, v2⟩ := hcomp c hc
    refine ⟨c2, ?_, d2, fun e he => v2 e he⟩
    have e2' : forRange (fun i c2 => c2.turn_layer_y i (rotationCount dir))
        l (c.turn_face CubeFace.Up (rotationCount dir)) = some c2 := e2
    show (forRange _ l (c.turn_face CubeFace.Up (rotationCount dir))).map
      ApplyResult.ok = some (ApplyResult.ok c2)
    rw [e2']
    rfl
  | Down l =>
    simp only [OkCond] at hok
    have hpres : ∀ i, i < l →
        PreservesValid n ((yMap n (n - 1 - i))^[4 - rotationCount dir]) :=
      fun i hi => (preserves_yMap (by omega)).iterate _
    have hfr := Tracks.forRange (n := n)
      (f := fun i c2 => (sub? c2.divisions 1).bind fun d =>
        (sub? d i).bind fun j => c2.turn_layer_y j (4 - rotationCount dir))
      (σ := fun i => (yMap n (n - 1 - i))^[4 - rotationCount dir])
      (fun i hi => tracks_sub_body_y hok i hi) hpres
    have hcomp := (tracks_turn_face n CubeFace.Down (rotationCount dir)).comp hfr
      (PreservesValid.prodMap hpres)
    obtain ⟨c2, e2, d2, v2⟩ := hcomp c hc
    refine ⟨c2, ?_, d2, fun e he => v2 e he⟩
    have e2' : forRange
        (fun i c2 => do
          let d ← sub? c2.divisions 1
          let j ← sub? d i
          c2.turn_layer_y j (4 - rotationCount dir))
        l (c.turn_face CubeFace.Down (rotationCount dir)) = some c2 := e2
    show (forRange _ l (c.turn_face CubeFace.Down (rotationCount dir))).map
      ApplyResult.ok = some (ApplyResult.ok c2)
    rw [e2']
    rfl
  | Standing =>
    simp only [OkCond] at hok
    obtain ⟨c2, e2, d2, v2⟩ := tracks_turn_layer_z (n := n) (r := 1) (by omega)
      (rotationCount dir) c hc
    have e2' : c.turn_layer_z 1 (rotationCount dir) = some c2 := e2
    refine ⟨c2, ?_, d2, fun e he => v2 e he⟩
    show (if c.divisions ≠ 3 then
        some (ApplyResult.err (CubeError.UndefinedMovement ⟨MFace.Standing, dir⟩) c)
      else (c.turn_layer_z 1 (rotationCount dir)).map ApplyResult.ok) =
      some (ApplyResult.ok c2)
    rw [if_neg (by omega), e2']
    rfl
  | Middle =>
    simp only [OkCond] at hok
    obtain ⟨c2, e2, d2, v2⟩ := tracks_turn_layer_x (n := n) (j := 1) (by omega)
      (4 - rotationCount dir) c hc
    have e2' : c.turn_layer_x 1 (4 - rotationCount dir) = some c2 := e2
    refine ⟨c2, ?_, d2, fun e he => v2 e he⟩
    show (if c.divisions ≠ 3 then
        some (ApplyResult.err (CubeError.UndefinedMovement ⟨MFace.Middle, dir⟩) c)
      else (c.turn_layer_x 1 (4 - rotationCount dir)).map ApplyResult.ok) =
      some (ApplyResult.ok c2)
    rw [if_neg (by omega), e2']
    rfl
  | Equational =>
    simp only [OkCond] at hok
    obtain ⟨c2, e2, d2, v2⟩ := tracks_turn_layer_y (n := n) (r := 1) (by omega)
      (rotationCount dir) c hc
    have e2' : c.turn_layer_y 1 (rotationCount dir) = some c2 := e2
    refine ⟨c2, ?_, d2, fun e he => v2 e he⟩
    show (if c.divisions ≠ 3 then
        some (ApplyResult.err (CubeError.UndefinedMovement ⟨MFace.Equational, dir⟩) c)
      else (c.turn_layer_y 1 (rotationCount dir)).map ApplyResult.ok) =
      some (ApplyResult.ok c2)
    rw [if_neg (by omega), e2']
    rfl
  | X =>
    have hpres : ∀ i, i < n → PreservesValid n ((xMap n i)^[rotationCount dir]) :=
      fun i hi => (preserves_xMap (by omega)).iterate _
    have hfr := Tracks.forRange (n := n)
      (f := fun i c2 => c2.turn_layer_x i (rotationCount dir))
      (σ := fun i => (xMap n i)^[rotationCount dir])
      (fun i hi => tracks_turn_layer_x (by omega) _) hpres
    have hfaces := (tracks_turn_face n CubeFace.Right (rotationCount dir)).comp
      (tracks_turn_face n CubeFace.Left (4 - rotationCount dir))
      ((preserves_faceMap _).iterate _)
    have hcomp := hfaces.comp hfr (PreservesValid.prodMap hpres)
    obtain ⟨c2, e2, d2, v2⟩ := hcomp c hc
    refine ⟨c2, ?_, d2, fun e he => v2 e he⟩
    have e2' : forRange (fun i c2 => c2.turn_layer_x i (rotationCount dir)) n
        ((c.turn_face CubeFace.Right (rotationCount dir)).turn_face CubeFace.Left
          (4 - rotationCount dir)) = some c2 := e2
    show (forRange (fun i c2 => c2.turn_layer_x i (rotationCount dir)) c.divisions
        ((c.turn_face CubeFace.Right (rotationCount dir)).turn_face CubeFace.Left
          (4 - rotationCount dir))).map ApplyResult.ok = some (ApplyResult.ok c2)
    rw [hc, e2']
    rfl
  | Y =>
    have hpres : ∀ i, i < n → PreservesValid n ((yMap n i)^[rotationCount dir]) :=
      fun i hi => (preserves_yMap (by omega)).iterate _
    have hfr := Tracks.forRange (n := n)
      (f := fun i c2 => c2.turn_layer_y i (rotationCount dir))
      (σ := fun i => (yMap n i)^[rotationCount dir])
      (fun i hi => tracks_turn_layer_y (by omega) _) hpres
    have hfaces := (tracks_turn_face n CubeFace.Up (rotationCount dir)).comp
      (tracks_turn_face n CubeFace.Down (4 - rotationCount dir))
      ((preserves_faceMap _).iterate _)
    have hcomp := hfaces.comp hfr (PreservesValid.prodMap hpres)
    obtain ⟨c2, e2, d2, v2⟩ := hcomp c hc
    refine ⟨c2, ?_, d2, fun e he => v2 e he⟩
    have e2' : forRange (fun i c2 => c2.turn_layer_y i (rotationCount dir)) n
        ((c.turn_face CubeFace.Up (rotationCount dir)).turn_face CubeFace.Down
          (4 - rotationCount dir)) = some c2 := e2
    show (forRange (fun i c2 => c2.turn_layer_y i (rotationCount dir)) c.divisions
        ((c.turn_face CubeFace.Up (rotationCount dir)).turn_face CubeFace.Down
          (4 - rotationCount dir))).map ApplyResult.ok = some (ApplyResult.ok c2)
    rw [hc, e2']
    rfl
  | Z =>
    have hpres : ∀ i, i < n → PreservesValid n ((zMap n i)^[rotationCount dir]) :=
      fun i hi => (preserves_zMap (by omega)).iterate _
    have hfr := Tracks.forRange (n := n)
      (f := fun i c2 => c2.turn_layer_z i (rotationCount dir))
      (σ := fun i => (zMap n i)^[rotationCount dir])
      (fun i hi => tracks_turn_layer_z (by omega) _) hpres
    have hfaces := (tracks_turn_face n CubeFace.Front (rotationCount dir)).comp
      (tracks_turn_face n CubeFace.Back (4 - rotationCount dir))
      ((preserves_faceMap _).iterate _)
    have hcomp := hfaces.comp hfr (PreservesValid.prodMap hpres)
    obtain ⟨c2, e2, d2, v2⟩ := hcomp c hc
    refine ⟨c2, ?_, d2, fun e he => v2 e he⟩
    have e2' : forRange (fun i c2 => c2.turn_layer_z i (rotationCount dir)) n
        ((c.turn_face CubeFace.Front (rotationCount dir)).turn_face CubeFace.Back
          (4 - rotationCount dir)) = some c2 := e2
    show (forRange (fun i c2 => c2.turn_layer_z i (rotationCount dir)) c.divisions
        ((c.turn_face CubeFace.Front (rotationCount dir)).turn_face CubeFace.Back
          (4 - rotationCount dir))).map ApplyResult.ok = some (ApplyResult.ok c2)
    rw [hc, e2']
    rfl

/-! ## Cancellation of composite maps -/

theorem face_layers_cancel {n : Nat} {tf : CubeFace} {μ : Nat → Cell → Cell} {l : Nat}
    (a b a2 b2 : Nat) (hab : a + b = 4) (hab2 : a2 + b2 = 4)
    (hcfl : ∀ i, i < l → CommuteMaps (faceMap tf n) (μ i))
    (hcomm : ∀ i k, i < l → k < l → i ≠ k → CommuteMaps (μ i) (μ k))
    (hfour : ∀ i, i < l → ∀ e : Cell, ValidCell n e → (μ i)^[4] e = e) :
    ∀ e : Cell, ValidCell n e →
      ((faceMap tf n)^[a] ∘ prodMap (fun i => (μ i)^[a2]) l)
        (((faceMap tf n)^[b] ∘ prodMap (fun i => (μ i)^[b2]) l) e) = e := by
  intro e he
  show (faceMap tf n)^[a] (prodMap (fun i => (μ i)^[a2]) l
      ((faceMap tf n)^[b] (prodMap (fun i => (μ i)^[b2]) l e))) = e
  have hcm : CommuteMaps ((faceMap tf n)^[b]) (prodMap (fun i => (μ i)^[a2]) l) :=
    prodMap_comm (fun i hi => (hcfl i hi).iterate_both b a2)
  have s2 : prodMap (fun i => (μ i)^[a2]) l (prodMap (fun i => (μ i)^[b2]) l e) =
      prodMap (fun i => (μ i)^[a2 + b2]) l e := prodMap_pow_add a2 b2 hcomm e
  have s3 : prodMap (fun i => (μ i)^[a2 + b2]) l e = e := by
    simp only [hab2]
    exact prodMap_id_valid (fun i hi e2 he2 => hfour i hi e2 he2) e he
  calc (faceMap tf n)^[a] (prodMap (fun i => (μ i)^[a2]) l
      ((faceMap tf n)^[b] (prodMap (fun i => (μ i)^[b2]) l e)))
      = (faceMap tf n)^[a] ((faceMap tf n)^[b]
          (prodMap (fun i => (μ i)^[a2]) l (prodMap (fun i => (μ i)^[b2]) l e))) := by
        rw [hcm (prodMap (fun i => (μ i)^[b2]) l e)]
    _ = (faceMap tf n)^[a + b]
          (prodMap (fun i => (μ i)^[a2]) l (prodMap (fun i => (μ i)^[b2]) l e)) :=
        (Function.iterate_add_apply _ a b _).symm
    _ = (faceMap tf n)^[4] e := by rw [hab, s2, s3]
    _ = e := faceMap_four tf e he

theorem xyz_cancel {n : Nat} {t1 t2 : CubeFace} {μ : Nat → Cell → Cell}
    (a b : Nat) (hab : a + b = 4) (ha : a ≤ 4) (h12 : t1 ≠ t2)
    (hcf1 : ∀ i, i < n → CommuteMaps (faceMap t1 n) (μ i))
    (hcf2 : ∀ i, i < n → CommuteMaps (faceMap t2 n) (μ i))
    (hcomm : ∀ i k, i < n → k < n → i ≠ k → CommuteMaps (μ i) (μ k))
    (hfour : ∀ i, i < n → ∀ e : Cell, ValidCell n e → (μ i)^[4] e = e) :
    ∀ e : Cell, ValidCell n e →
      ((faceMap t1 n)^[a] ∘ (faceMap t2 n)^[4 - a] ∘ prodMap (fun i => (μ i)^[a]) n)
        (((faceMap t1 n)^[b] ∘ (faceMap t2 n)^[4 - b] ∘
          prodMap (fun i => (μ i)^[b]) n) e) = e := by
  intro e he
  show (faceMap t1 n)^[a] ((faceMap t2 n)^[4 - a] (prodMap (fun i => (μ i)^[a]) n
      ((faceMap t1 n)^[b] ((faceMap t2 n)^[4 - b]
        (prodMap (fun i => (μ i)^[b]) n e))))) = e
  have hcm1 : CommuteMaps ((faceMap t1 n)^[b]) (prodMap (fun i => (μ i)^[a]) n) :=
    prodMap_comm (fun i hi => (hcf1 i hi).iterate_both b a)
  have hcm2 : CommuteMaps ((faceMap t2 n)^[4 - b]) (prodMap (fun i => (μ i)^[a]) n) :=
    prodMap_comm (fun i hi => (hcf2 i hi).iterate_both (4 - b) a)
  have hcm12 : CommuteMaps ((faceMap t2 n)^[4 - a]) ((faceMap t1 n)^[b]) :=
    (comm_faceMap_faceMap (n := n) (Ne.symm h12)).iterate_both (4 - a) b
  have s2 : prodMap (fun i => (μ i)^[a]) n (prodMap (fun i => (μ i)^[b]) n e) =
      prodMap (fun i => (μ i)^[a + b]) n e := prodMap_pow_add a b hcomm e
  have s3 : prodMap (fun i => (μ i)^[a + b]) n e = e := by
    simp only [hab]
    exact prodMap_id_valid (fun i hi e2 he2 => hfour i hi e2 he2) e he
  calc (faceMap t1 n)^[a] ((faceMap t2 n)^[4 - a] (prodMap (fun i => (μ i)^[a]) n
      ((faceMap t1 n)^[b] ((faceMap t2 n)^[4 - b] (prodMap (fun i => (μ i)^[b]) n e)))))
      = (faceMap t1 n)^[a] ((faceMap t2 n)^[4 - a] ((faceMap t1 n)^[b]
          (prodMap (fun i => (μ i)^[a]) n ((faceMap t2 n)^[4 - b]
            (prodMap (fun i => (μ i)^[b]) n e))))) := by
        rw [hcm1 ((faceMap t2 n)^[4 - b] (prodMap (fun i => (μ i)^[b]) n e))]
    _ = (faceMap t1 n)^[a] ((faceMap t2 n)^[4 - a] ((faceMap t1 n)^[b]
          ((faceMap t2 n)^[4 - b] (prodMap (fun i => (μ i)^[a]) n
            (prodMap (fun i => (μ i)^[b]) n e))))) := by
        rw [hcm2 (prodMap (fun i => (μ i)^[b]) n e)]
    _ = (faceMap t1 n)^[a] ((faceMap t1 n)^[b] ((faceMap t2 n)^[4 - a]
          ((faceMap t2 n)^[4 - b] (prodMap (fun i => (μ i)^[a]) n
            (prodMap (fun i => (μ i)^[b]) n e))))) := by
        rw [hcm12 ((faceMap t2 n)^[4 - b] (prodMap (fun i => (μ i)^[a]) n
          (prodMap (fun i => (μ i)^[b]) n e)))]
    _ = (faceMap t1 n)^[a + b] ((faceMap t2 n)^[(4 - a) + (4 - b)]
          (prodMap (fun i => (μ i)^[a]) n (prodMap (fun i => (μ i)^[b]) n e))) := by
        rw [Function.iterate_add_apply, Function.iterate_add_apply]
    _ = (faceMap t1 n)^[4] ((faceMap t2 n)^[4] e) := by
        have h4 : (4 - a) + (4 - b) = 4 := by omega
        rw [hab, h4, s2, s3]
    _ = e := by rw [faceMap_four t2 e he, faceMap_four t1 e he]

/-- `applyMap` preserves in-range cells whenever the move's `OkCond` holds. -/
theorem applyMap_preserves {n : Nat} (t : MFace) (k : Nat) (hok : OkCond n t) :
    PreservesValid n (applyMap n t k) := by
  cases t with
  | Front l =>
    simp only [OkCond] at hok
    intro e he
    exact ((preserves_faceMap _).iterate k) _
      ((PreservesValid.prodMap (fun i hi => (preserves_zMap
        (show n - 1 - i < n by omega)).iterate k)) e he)
  | Back l =>
    simp only [OkCond] at hok
    intro e he
    exact ((preserves_faceMap _).iterate k) _
      ((PreservesValid.prodMap (fun i hi => (preserves_zMap
        (show i < n by omega)).iterate (4 - k))) e he)
  | Left l =>
    simp only [OkCond] at hok
    intro e he
    exact ((preserves_faceMap _).iterate k) _
      ((PreservesValid.prodMap (fun i hi => (preserves_xMap
        (show i < n by omega)).iterate (4 - k))) e he)
  | Right l =>
    simp only [OkCond] at hok
    intro e he
    exact ((preserves_faceMap _).iterate k) _
      ((PreservesValid.prodMap (fun i hi => (preserves_xMap
        (show n - 1 - i < n by omega)).iterate k)) e he)
  | Up l =>
    simp only [OkCond] at hok
    intro e he
    exact ((preserves_faceMap _).iterate k) _
      ((PreservesValid.prodMap (fun i hi => (preserves_yMap
        (show i < n by omega)).iterate k)) e he)
  | Down l =>
    simp only [OkCond] at hok
    intro e he
    exact ((preserves_faceMap _).iterate k) _
      ((PreservesValid.prodMap (fun i hi => (preserves_yMap
        (show n - 1 - i < n by omega)).iterate (4 - k))) e he)
  | Standing =>
    simp only [OkCond] at hok
    exact (preserves_zMap (by omega)).iterate k
  | Middle =>
    simp only [OkCond] at hok
    exact (preserves_xMap (by omega)).iterate (4 - k)
  | Equational =>
    simp only [OkCond] at hok
    exact (preserves_yMap (by omega)).iterate k
  | X =>
    intro e he
    exact ((preserves_faceMap _).iterate k) _ (((preserves_faceMap _).iterate (4 - k)) _
      ((PreservesValid.prodMap (fun i hi => (preserves_xMap hi).iterate k)) e he))
  | Y =>
    intro e he
    exact ((preserves_faceMap _).iterate k) _ (((preserves_faceMap _).iterate (4 - k)) _
      ((PreservesValid.prodMap (fun i hi => (preserves_yMap hi).iterate k)) e he))
  | Z =>
    intro e he
    exact ((preserves_faceMap _).iterate k) _ (((preserves_faceMap _).iterate (4 - k)) _
      ((PreservesValid.prodMap (fun i hi => (preserves_zMap hi).iterate k)) e he))

/-- The two composite maps of a move and its inverse cancel on in-range
cells whenever the rotation counts sum to a full turn. -/
theorem applyMap_cancel {n : Nat} (t : MFace) (a b : Nat) (hok : OkCond n t)
    (hab : a + b = 4) :
    ∀ e : Cell, ValidCell n e → applyMap n t a (applyMap n t b e) = e := by
  cases t with
  | Front l =>
    simp only [OkCond] at hok
    exact face_layers_cancel a b a b hab hab
      (fun i hi => comm_faceMap_zMap (by decide) (by decide) (by decide) (by decide))
      (fun i k hi hk hik => comm_zMap_zMap (by omega) (by omega) (by omega))
      (fun i hi e he => zMap_four (by omega) e he)
  | Back l =>
    simp only [OkCond] at hok
    exact face_layers_cancel a b (4 - a) (4 - b) hab (by omega)
      (fun i hi => comm_faceMap_zMap (by decide) (by decide) (by decide) (by decide))
      (fun i k hi hk hik => comm_zMap_zMap (by omega) (by omega) hik)
      (fun i hi e he => zMap_four (by omega) e he)
  | Left l =>
    simp only [OkCond] at hok
    exact face_layers_cancel a b (4 - a) (4 - b) hab (by omega)
      (fun i hi => comm_faceMap_xMap (by decide) (by decide) (by decide) (by decide))
      (fun i k hi hk hik => comm_xMap_xMap (by omega) (by omega) hik)
      (fun i hi e he => xMap_four (by omega) e he)
  | Right l =>
    simp only [OkCond] at hok
    exact face_layers_cancel a b a b hab hab
      (fun i hi => comm_faceMap_xMap (by decide) (by decide) (by decide) (by decide))
      (fun i k hi hk hik => comm_xMap_xMap (by omega) (by omega) (by omega))
      (fun i hi e he => xMap_four (by omega) e he)
  | Up l =>
    simp only [OkCond] at hok
    exact face_layers_cancel a b a b hab hab
      (fun i hi => comm_faceMap_yMap (by decide) (by decide) (by decide) (by decide))
      (fun i k hi hk hik => comm_yMap_yMap hik)
      (fun i hi e he => yMap_four (by omega) e he)
  | Down l =>
    simp only [OkCond] at hok
    exact face_layers_cancel a b (4 - a) (4 - b) hab (by omega)
      (fun i hi => comm_faceMap_yMap (by decide) (by decide) (by decide) (by decide))
      (fun i k hi hk hik => comm_yMap_yMap (by omega))
      (fun i hi e he => yMap_four (by omega) e he)
  | Standing =>
    simp only [OkCond] at hok
    intro e he
    show (zMap n 1)^[a] ((zMap n 1)^[b] e) = e
    rw [← Function.iterate_add_apply, hab]
    exact zMap_four (by omega) e he
  | Middle =>
    simp only [OkCond] at hok
    intro e he
    show (xMap n 1)^[4 - a] ((xMap n 1)^[4 - b] e) = e
    have h4 : (4 - a) + (4 - b) = 4 := by omega
    rw [← Function.iterate_add_apply, h4]
    exact xMap_four (by omega) e he
  | Equational =>
    simp only [OkCond] at hok
    intro e he
    show (yMap n 1)^[a] ((yMap n 1)^[b] e) = e
    rw [← Function.iterate_add_apply, hab]
    exact yMap_four (by omega) e he
  | X =>
    exact xyz_cancel a b hab (by omega) (by decide)
      (fun i hi => comm_faceMap_xMap (by decide) (by decide) (by decide) (by decide))
      (fun i hi => comm_faceMap_xMap (by decide) (by decide) (by decide) (by decide))
      (fun i k hi hk hik => comm_xMap_xMap hi hk hik)
      (fun i hi e he => xMap_four hi e he)
  | Y =>
    exact xyz_cancel a b hab (by omega) (by decide)
      (fun i hi => comm_faceMap_yMap (by decide) (by decide) (by decide) (by decide))
      (fun i hi => comm_faceMap_yMap (by decide) (by decide) (by decide) (by decide))
      (fun i k hi hk hik => comm_yMap_yMap hik)
      (fun i hi e he => yMap_four hi e he)
  | Z =>
    exact xyz_cancel a b hab (by omega) (by decide)
      (fun i hi => comm_faceMap_zMap (by decide) (by decide) (by decide) (by decide))
      (fun i hi => comm_faceMap_zMap (by decide) (by decide) (by decide) (by decide))
      (fun i k hi hk hik => comm_zMap_zMap hi hk hik)
      (fun i hi e he => zMap_four hi e he)

/-! ## Failure classification -/

theorem rotationCount_pos (dir : Rotation) : 1 ≤ rotationCount dir := by
  cases dir <;> simp [rotationCount]

theorem rotationCount_le (dir : Rotation) : rotationCount dir ≤ 3 := by
  cases dir <;> simp [rotationCount]

theorem forRange_none_of_le {f : Nat → Cube → Option Cube} {k l : Nat} {c : Cube}
    (h : forRange f k c = none) (hkl : k ≤ l) : forRange f l c = none := by
  induction l with
  | zero =>
    have hk0 : k = 0 := by omega
    subst hk0
    exact h
  | succ m ih =>
    by_cases hk : k ≤ m
    · show (forRange f m c).bind (f m) = none
      rw [ih hk]
      rfl
    · have hk1 : k = m + 1 := by omega
      subst hk1
      exact h

theorem iterateM_none {op : Cube → Option Cube} {k : Nat} (hk : 0 < k) {c : Cube}
    (h : op c = none) : iterateM op k c = none := by
  cases k with
  | zero => omega
  | succ m =>
    show (op c).bind (iterateM op m) = none
    rw [h]
    rfl

theorem turn_layer_y_step_none {c : Cube} {row : Nat} (h : c.divisions ≤ row)
    (hn : 0 < c.divisions) : c.turn_layer_y_step row = none := by
  have hz : c.divisions * c.divisions - row * c.divisions = 0 :=
    Nat.sub_eq_zero_of_le (Nat.mul_le_mul_right _ h)
  have hcond : ¬((c.extract_row CubeFace.Right row).len = c.divisions ∧
      (c.divisions = 0 ∨ row < c.divisions)) := by
    simp only [Cube.extract_row, hz, Nat.min_zero]
    omega
  simp only [Cube.turn_layer_y_step, Option.bind_eq_bind]
  rw [show c.swap_to_row CubeFace.Front row (c.extract_row CubeFace.Right row) false
      = none from by simp only [Cube.swap_to_row]; rw [if_neg hcond]]
  rfl

theorem turn_layer_x_step_none {c : Cube} {col : Nat} (h : c.divisions ≤ col)
    (hn : 0 < c.divisions) : c.turn_layer_x_step col = none := by
  have hcond : ¬((c.extract_column CubeFace.Front col).len = c.divisions ∧
      (c.divisions = 0 ∨ col < c.divisions)) := by
    simp only [Cube.extract_column]
    rw [if_neg (by omega)]
    omega
  simp only [Cube.turn_layer_x_step, Option.bind_eq_bind]
  rw [show c.swap_to_column CubeFace.Up col (c.extract_column CubeFace.Front col) false
      = none from by simp only [Cube.swap_to_column]; rw [if_neg hcond]]
  rfl

theorem turn_layer_z_step_none {c : Cube} {row : Nat} (h : c.divisions ≤ row)
    (hn : 0 < c.divisions) : c.turn_layer_z_step row = none := by
  simp only [Cube.turn_layer_z_step, Option.bind_eq_bind]
  rw [sub?_some (show 1 ≤ c.divisions by omega)]
  simp only [Option.some_bind]
  rw [show sub? (c.divisions - 1) row = none from by
    simp only [sub?]; rw [if_neg (by omega)]]
  rfl

theorem forRange_body_none {f : Nat → Cube → Option Cube} {σ : Nat → Cell → Cell}
    {n l : Nat} (c0 : Cube) (hc0 : c0.divisions = n)
    (htr : ∀ i, i < n → Tracks n (f i) (σ i))
    (hp : ∀ i, i < n → PreservesValid n (σ i))
    (hfail : ∀ c2 : Cube, c2.divisions = n → f n c2 = none)
    (hl : n < l) :
    forRange f l c0 = none := by
  obtain ⟨cn, en, dn, _⟩ := Tracks.forRange htr hp c0 hc0
  have h1 : forRange f (n + 1) c0 = none := by
    show (forRange f n c0).bind (f n) = none
    rw [en]
    show f n cn = none
    exact hfail cn dn
  exact forRange_none_of_le h1 (by omega)

theorem apply_front_none {n l : Nat} (dir : Rotation) (c : Cube) (hc : c.divisions = n)
    (hn : 0 < n) (hl : n < l) : c.apply ⟨MFace.Front l, dir⟩ = none := by
  have hb := forRange_body_none (n := n)
    (f := fun i c2 => do
      let d ← sub? c2.divisions 1
      let j ← sub? d i
      c2.turn_layer_z j (rotationCount dir))
    (σ := fun i => (zMap n (n - 1 - i))^[rotationCount dir])
    (c.turn_face CubeFace.Front (rotationCount dir)) hc
    (fun i hi => tracks_sub_body_z (le_refl n) i hi)
    (fun i hi => (preserves_zMap (by omega)).iterate _)
    (fun c2 hc2 => by
      simp only [hc2, sub?_some (show (1 : Nat) ≤ n by omega), Option.bind_eq_bind,
        Option.some_bind]
      rw [show sub? (n - 1) n = none from by
        simp only [sub?]; rw [if_neg (by omega)]]
      rfl)
    hl
  show (forRange _ l (c.turn_face CubeFace.Front (rotationCount dir))).map
    ApplyResult.ok = none
  rw [hb]
  rfl

theorem apply_right_none {n l : Nat} (dir : Rotation) (c : Cube) (hc : c.divisions = n)
    (hn : 0 < n) (hl : n < l) : c.apply ⟨MFace.Right l, dir⟩ = none := by
  have hb := forRange_body_none (n := n)
    (f := fun i c2 => do
      let d ← sub? c2.divisions 1
      let j ← sub? d i
      c2.turn_layer_x j (rotationCount dir))
    (σ := fun i => (xMap n (n - 1 - i))^[rotationCount dir])
    (c.turn_face CubeFace.Right (rotationCount dir)) hc
    (fun i hi => tracks_sub_body_x (le_refl n) i hi)
    (fun i hi => (preserves_xMap (by omega)).iterate _)
    (fun c2 hc2 => by
      simp only [hc2, sub?_some (show (1 : Nat) ≤ n by omega), Option.bind_eq_bind,
        Option.some_bind]
      rw [show sub? (n - 1) n = none from by
        simp only [sub?]; rw [if_neg (by omega)]]
      rfl)
    hl
  show (forRange _ l (c.turn_face CubeFace.Right (rotationCount dir))).map
    ApplyResult.ok = none
  rw [hb]
  rfl

theorem apply_down_none {n l : Nat} (dir : Rotation) (c : Cube) (hc : c.divisions = n)
    (hn : 0 < n) (hl : n < l) : c.apply ⟨MFace.Down l, dir⟩ = none := by
  have hb := forRange_body_none (n := n)
    (f := fun i c2 => do
      let d ← sub? c2.divisions 1
      let j ← sub? d i
      c2.turn_layer_y j (4 - rotationCount dir))
    (σ := fun i => (yMap n (n - 1 - i))^[4 - rotationCount dir])
    (c.turn_face CubeFace.Down (rotationCount dir)) hc
    (fun i hi => tracks_sub_body_y (le_refl n) i hi)
    (fun i hi => (preserves_yMap (by omega)).iterate _)
    (fun c2 hc2 => by
      simp only [hc2, sub?_some (show (1 : Nat) ≤ n by omega), Option.bind_eq_bind,
        Option.some_bind]
      rw [show sub? (n - 1) n = none from by
        simp only [sub?]; rw [if_neg (by omega)]]
      rfl)
    hl
  show (forRange _ l (c.turn_face CubeFace.Down (rotationCount dir))).map
    ApplyResult.ok = none
  rw [hb]
  rfl

theorem apply_back_none {n l : Nat} (dir : Rotation) (c : Cube) (hc : c.divisions = n)
    (hn : 0 < n) (hl : n < l) : c.apply ⟨MFace.Back l, dir⟩ = none := by
  have hb := forRange_body_none (n := n)
    (f := fun i c2 => c2.turn_layer_z i (4 - rotationCount dir))
    (σ := fun i => (zMap n i)^[4 - rotationCount dir])
    (c.turn_face CubeFace.Back (rotationCount dir)) hc
    (fun i hi => tracks_turn_layer_z (by omega) _)
    (fun i hi => (preserves_zMap (by omega)).iterate _)
    (fun c2 hc2 =>
      iterateM_none (by have := rotationCount_le dir; omega)
        (turn_layer_z_step_none (by omega) (by omega)))
    hl
  show (forRange _ l (c.turn_face CubeFace.Back (rotationCount dir))).map
    ApplyResult.ok = none
  rw [hb]
  rfl

theorem apply_left_none {n l : Nat} (dir : Rotation) (c : Cube) (hc : c.divisions = n)
    (hn : 0 < n) (hl : n < l) : c.apply ⟨MFace.Left l, dir⟩ = none := by
  have hb := forRange_body_none (n := n)
    (f := fun i c2 => c2.turn_layer_x i (4 - rotationCount dir))
    (σ := fun i => (xMap n i)^[4 - rotationCount dir])
    (c.turn_face CubeFace.Left (rotationCount dir)) hc
    (fun i hi => tracks_turn_layer_x (by omega) _)
    (fun i hi => (preserves_xMap (by omega)).iterate _)
    (fun c2 hc2 =>
      iterateM_none (by have := rotationCount_le dir; omega)
        (turn_layer_x_step_none (by omega) (by omega)))
    hl
  show (forRange _ l (c.turn_face CubeFace.Left (rotationCount dir))).map
    ApplyResult.ok = none
  rw [hb]
  rfl

theorem apply_up_none {n l : Nat} (dir : Rotation) (c : Cube) (hc : c.divisions = n)
    (hn : 0 < n) (hl : n < l) : c.apply ⟨MFace.Up l, dir⟩ = none := by
  have hb := forRange_body_none (n := n)
    (f := fun i c2 => c2.turn_layer_y i (rotationCount dir))
    (σ := fun i => (yMap n i)^[rotationCount dir])
    (c.turn_face CubeFace.Up (rotationCount dir)) hc
    (fun i hi => tracks_turn_layer_y (by omega) _)
    (fun i hi => (preserves_yMap (by omega)).iterate _)
    (fun c2 hc2 =>
      iterateM_none (rotationCount_pos dir)
        (turn_layer_y_step_none (by omega) (by omega)))
    hl
  show (forRange _ l (c.turn_face CubeFace.Up (rotationCount dir))).map
    ApplyResult.ok = none
  rw [hb]
  rfl

/-! ## Degenerate division count zero, and the slice error -/

theorem swap_to_row_some_zero {c : Cube} {tf : CubeFace} {row : Nat} {v : Strip}
    {inv : Bool} (hc : c.divisions = 0) (hlen : v.len = 0) :
    c.swap_to_row tf row v inv =
      some (c.extract_row tf row,
        { c with
          faces := setFace c.faces tf (fun p =>
            if row * c.divisions ≤ p ∧ p < row * c.divisions + c.divisions then
              v.vals
                (if inv then c.divisions - 1 - (p - row * c.divisions)
                 else p - row * c.divisions)
            else c.faces tf p) }) := by
  simp only [Cube.swap_to_row]
  rw [if_pos ⟨by omega, Or.inl hc⟩]

theorem extract_row_len_zero {c : Cube} (hc : c.divisions = 0) (f : CubeFace) (r : Nat) :
    (c.extract_row f r).len = 0 := by
  simp [Cube.extract_row, hc]

theorem turn_layer_y_step_zero {c : Cube} (hc : c.divisions = 0) (r : Nat) :
    ∃ c2, c.turn_layer_y_step r = some c2 ∧ c2.divisions = 0 := by
  simp only [Cube.turn_layer_y_step, Option.bind_eq_bind, swap_to_row_some_zero,
    extract_row_len_zero, hc, Option.some_bind]
  exact ⟨_, rfl, rfl⟩

theorem turn_layer_y_zero {k : Nat} : ∀ {c : Cube}, c.divisions = 0 → ∀ r : Nat,
    ∃ c2, c.turn_layer_y r k = some c2 ∧ c2.divisions = 0 := by
  induction k with
  | zero => exact fun {c} hc r => ⟨c, rfl, hc⟩
  | succ m ih =>
    intro c hc r
    obtain ⟨c1, e1, d1⟩ := turn_layer_y_step_zero hc r
    obtain ⟨c2, e2, d2⟩ := ih d1 r
    refine ⟨c2, ?_, d2⟩
    show (c.turn_layer_y_step r).bind (iterateM _ m) = some c2
    rw [e1]
    exact e2

theorem apply_up_zero {l : Nat} (dir : Rotation) (c : Cube) (hc : c.divisions = 0) :
    ∃ c2, c.apply ⟨MFace.Up l, dir⟩ = some (ApplyResult.ok c2) ∧ c2.divisions = 0 := by
  have hfr : ∀ (m : Nat) (c0 : Cube), c0.divisions = 0 →
      ∃ c2, forRange (fun i c2 => c2.turn_layer_y i (rotationCount dir)) m c0 = some c2 ∧
        c2.divisions = 0 := by
    intro m
    induction m with
    | zero => exact fun c0 hc0 => ⟨c0, rfl, hc0⟩
    | succ k ih =>
      intro c0 hc0
      obtain ⟨ck, ek, dk⟩ := ih c0 hc0
      obtain ⟨c2, e2, d2⟩ := turn_layer_y_zero dk k
      refine ⟨c2, ?_, d2⟩
      show (forRange _ k c0).bind _ = some c2
      rw [ek]
      exact e2
  obtain ⟨c2, e2, d2⟩ := hfr l (c.turn_face CubeFace.Up (rotationCount dir)) hc
  refine ⟨c2, ?_, d2⟩
  show (forRange _ l (c.turn_face CubeFace.Up (rotationCount dir))).map
    ApplyResult.ok = some (ApplyResult.ok c2)
  rw [e2]
  rfl

theorem apply_slice_err {c : Cube} {m : Movement} (hs : isSlice m.target = true)
    (hne : c.divisions ≠ 3) :
    c.apply m = some (ApplyResult.err (CubeError.UndefinedMovement m) c) := by
  obtain ⟨t, dir⟩ := m
  cases t <;> simp_all [isSlice, Cube.apply]

theorem forRange_first_none {f : Nat → Cube → Option Cube} {l : Nat} {c : Cube}
    (hl : 0 < l) (h : f 0 c = none) : forRange f l c = none := by
  have h1 : forRange f 1 c = none := by
    show (forRange f 0 c).bind (f 0) = none
    show f 0 c = none
    exact h
  exact forRange_none_of_le h1 hl

theorem turn_layer_z_step_zero_none {c : Cube} (hc : c.divisions = 0) (row : Nat) :
    c.turn_layer_z_step row = none := by
  simp only [Cube.turn_layer_z_step, Option.bind_eq_bind, hc]
  rfl

theorem turn_layer_x_step_zero_none {c : Cube} (hc : c.divisions = 0) (col : Nat) :
    c.turn_layer_x_step col = none := by
  have hcond : (c.extract_column CubeFace.Front col).len = c.divisions ∧
      (c.divisions = 0 ∨ col < c.divisions) := by
    constructor
    · simp [Cube.extract_column, hc]
    · exact Or.inl hc
  simp only [Cube.turn_layer_x_step, Option.bind_eq_bind]
  rw [show c.swap_to_column CubeFace.Up col (c.extract_column CubeFace.Front col) false =
      some (c.extract_column CubeFace.Up col,
        { c with
          faces := setFace c.faces CubeFace.Up (fun p =>
            if p % c.divisions = col ∧ p < c.divisions * c.divisions then
              (c.extract_column CubeFace.Front col).vals
                (if false then c.divisions - 1 - p / c.divisions else p / c.divisions)
            else c.faces CubeFace.Up p) }) from by
    simp only [Cube.swap_to_column]
    rw [if_pos hcond]]
  simp only [Option.some_bind, hc]
  rfl

/-- A successful `apply` pins down the side condition: depth in range for
face turns (except that on a 0-division cube a `U` turn of any depth
vacuously succeeds), `n = 3` for slices, nothing for whole-cube turns. -/
theorem okCond_of_apply_ok {n : Nat} {c : Cube} (hc : c.divisions = n) {t : MFace}
    {dir : Rotation} {c2 : Cube} (h : c.apply ⟨t, dir⟩ = some (ApplyResult.ok c2)) :
    OkCond n t ∨ (n = 0 ∧ ∃ l, t = MFace.Up l) := by
  cases t with
  | Front l =>
    left
    show l ≤ n
    by_contra hgt
    push_neg at hgt
    rcases Nat.eq_zero_or_pos n with h0 | hpos
    · subst h0
      have h' : (forRange (fun i c2 => do
          let d ← sub? c2.divisions 1
          let j ← sub? d i
          c2.turn_layer_z j (rotationCount dir)) l
            (c.turn_face CubeFace.Front (rotationCount dir))).map ApplyResult.ok =
          some (ApplyResult.ok c2) := h
      rw [forRange_first_none (by omega) (by
        show (sub? (c.turn_face CubeFace.Front (rotationCount dir)).divisions 1).bind _ = none
        rw [show (c.turn_face CubeFace.Front (rotationCount dir)).divisions = 0 from hc]
        rfl)] at h'
      exact Option.noConfusion h'
    · rw [apply_front_none dir c hc hpos hgt] at h
      exact Option.noConfusion h
  | Right l =>
    left
    show l ≤ n
    by_contra hgt
    push_neg at hgt
    rcases Nat.eq_zero_or_pos n with h0 | hpos
    · subst h0
      have h' : (forRange (fun i c2 => do
          let d ← sub? c2.divisions 1
          let j ← sub? d i
          c2.turn_layer_x j (rotationCount dir)) l
            (c.turn_face CubeFace.Right (rotationCount dir))).map ApplyResult.ok =
          some (ApplyResult.ok c2) := h
      rw [forRange_first_none (by omega) (by
        show (sub? (c.turn_face CubeFace.Right (rotationCount dir)).divisions 1).bind _ = none
        rw [show (c.turn_face CubeFace.Right (rotationCount dir)).divisions = 0 from hc]
        rfl)] at h'
      exact Option.noConfusion h'
    · rw [apply_right_none dir c hc hpos hgt] at h
      exact Option.noConfusion h
  | Down l =>
    left
    show l ≤ n
    by_contra hgt
    push_neg at hgt
    rcases Nat.eq_zero_or_pos n with h0 | hpos
    · subst h0
      have h' : (forRange (fun i c2 => do
          let d ← sub? c2.divisions 1
          let j ← sub? d i
          c2.turn_layer_y j (4 - rotationCount dir)) l
            (c.turn_face CubeFace.Down (rotationCount dir))).map ApplyResult.ok =
          some (ApplyResult.ok c2) := h
      rw [forRange_first_none (by omega) (by
        show (sub? (c.turn_face CubeFace.Down (rotationCount dir)).divisions 1).bind _ = none
        rw [show (c.turn_face CubeFace.Down (rotationCount dir)).divisions = 0 from hc]
        rfl)] at h'
      exact Option.noConfusion h'
    · rw [apply_down_none dir c hc hpos hgt] at h
      exact Option.noConfusion h
  | Back l =>
    left
    show l ≤ n
    by_contra hgt
    push_neg at hgt
    rcases Nat.eq_zero_or_pos n with h0 | hpos
    · subst h0
      have h' : (forRange (fun i c2 => c2.turn_layer_z i (4 - rotationCount dir)) l
            (c.turn_face CubeFace.Back (rotationCount dir))).map ApplyResult.ok =
          some (ApplyResult.ok c2) := h
      rw [forRange_first_none
        (f := fun i c2 => c2.turn_layer_z i (4 - rotationCount dir)) (by omega)
        (iterateM_none (by have := rotationCount_le dir; omega)
          (turn_layer_z_step_zero_none
            (c := c.turn_face CubeFace.Back (rotationCount dir)) hc 0))] at h'
      exact Option.noConfusion h'
    · rw [apply_back_none dir c hc hpos hgt] at h
      exact Option.noConfusion h
  | Left l =>
    left
    show l ≤ n
    by_contra hgt
    push_neg at hgt
    rcases Nat.eq_zero_or_pos n with h0 | hpos
    · subst h0
      have h' : (forRange (fun i c2 => c2.turn_layer_x i (4 - rotationCount dir)) l
            (c.turn_face CubeFace.Left (rotationCount dir))).map ApplyResult.ok =
          some (ApplyResult.ok c2) := h
      rw [forRange_first_none
        (f := fun i c2 => c2.turn_layer_x i (4 - rotationCount dir)) (by omega)
        (iterateM_none (by have := rotationCount_le dir; omega)
          (turn_layer_x_step_zero_none
            (c := c.turn_face CubeFace.Left (rotationCount dir)) hc 0))] at h'
      exact Option.noConfusion h'
    · rw [apply_left_none dir c hc hpos hgt] at h
      exact Option.noConfusion h
  | Up l =>
    rcases Nat.eq_zero_or_pos n with h0 | hpos
    · exact Or.inr ⟨h0, l, rfl⟩
    · left
      show l ≤ n
      by_contra hgt
      push_neg at hgt
      rw [apply_up_none dir c hc hpos hgt] at h
      exact Option.noConfusion h
  | Standing =>
    left
    show n = 3
    by_contra hne
    rw [apply_slice_err (m := ⟨MFace.Standing, dir⟩) rfl (by omega)] at h
    exact ApplyResult.noConfusion (Option.some.inj h)
  | Middle =>
    left
    show n = 3
    by_contra hne
    rw [apply_slice_err (m := ⟨MFace.Middle, dir⟩) rfl (by omega)] at h
    exact ApplyResult.noConfusion (Option.some.inj h)
  | Equational =>
    left
    show n = 3
    by_contra hne
    rw [apply_slice_err (m := ⟨MFace.Equational, dir⟩) rfl (by omega)] at h
    exact ApplyResult.noConfusion (Option.some.inj h)
  | X => exact Or.inl trivial
  | Y => exact Or.inl trivial
  | Z => exact Or.inl trivial

/-! ## State equality helpers -/

theorem eqState_of_cellVal {c2 c : Cube} (hd2 : c2.divisions = c.divisions)
    (h : ∀ e : Cell, ValidCell c.divisions e → CellVal c2 e = CellVal c e) :
    c2.EqState c := by
  refine ⟨hd2, fun f p hp => ?_⟩
  rw [hd2] at hp
  by_cases hn : c.divisions = 0
  · rw [hn] at hp
    omega
  · have hpos : 0 < c.divisions := Nat.pos_of_ne_zero hn
    have hx : p % c.divisions < c.divisions := Nat.mod_lt _ hpos
    have hy : p / c.divisions < c.divisions := by
      rw [Nat.div_lt_iff_lt_mul hpos]
      exact hp
    have hv := h (f, p % c.divisions, p / c.divisions) ⟨hx, hy⟩
    simp only [CellVal, hd2] at hv
    have hdm : p / c.divisions * c.divisions + p % c.divisions = p := by
      rw [Nat.mul_comm]
      exact Nat.div_add_mod p c.divisions
    rw [hdm] at hv
    exact hv

theorem eqState_zero {c2 c : Cube} (hd2 : c2.divisions = 0) (hd : c.divisions = 0) :
    c2.EqState c := by
  refine ⟨by rw [hd2, hd], fun f p hp => ?_⟩
  rw [hd2] at hp
  omega

/-! ## Composition of composite maps (half and counterclockwise turns as
iterated clockwise turns) -/

theorem face_layers_compose {n : Nat} {tf : CubeFace} {μ : Nat → Cell → Cell} {l : Nat}
    (a b a2 b2 c2 : Nat) (hsum : a2 + b2 = c2 ∨ a2 + b2 = c2 + 4)
    (hcfl : ∀ i, i < l → CommuteMaps (faceMap tf n) (μ i))
    (hcomm : ∀ i k, i < l → k < l → i ≠ k → CommuteMaps (μ i) (μ k))
    (hfour : ∀ i, i < l → ∀ e : Cell, ValidCell n e → (μ i)^[4] e = e) :
    ∀ e : Cell, ValidCell n e →
      ((faceMap tf n)^[a] ∘ prodMap (fun i => (μ i)^[a2]) l)
        (((faceMap tf n)^[b] ∘ prodMap (fun i => (μ i)^[b2]) l) e) =
      ((faceMap tf n)^[a + b] ∘ prodMap (fun i => (μ i)^[c2]) l) e := by
  intro e he
  show (faceMap tf n)^[a] (prodMap (fun i => (μ i)^[a2]) l
      ((faceMap tf n)^[b] (prodMap (fun i => (μ i)^[b2]) l e))) =
    (faceMap tf n)^[a + b] (prodMap (fun i => (μ i)^[c2]) l e)
  have hcm : CommuteMaps ((faceMap tf n)^[b]) (prodMap (fun i => (μ i)^[a2]) l) :=
    prodMap_comm (fun i hi => (hcfl i hi).iterate_both b a2)
  have s2 := prodMap_pow_add a2 b2 hcomm e
  have s3 : prodMap (fun i => (μ i)^[a2 + b2]) l e =
      prodMap (fun i => (μ i)^[c2]) l e := by
    rcases hsum with h1 | h1
    · simp only [h1]
    · simp only [h1]
      have s4 := prodMap_pow_add c2 4 hcomm e
      rw [← s4, prodMap_id_valid (fun i hi e2 he2 => hfour i hi e2 he2) e he]
  rw [← hcm (prodMap (fun i => (μ i)^[b2]) l e), ← Function.iterate_add_apply, s2, s3]

theorem xyz_compose {n : Nat} {t1 t2 : CubeFace} {μ : Nat → Cell → Cell}
    (a b : Nat) (hab : a + b ≤ 4) (h12 : t1 ≠ t2)
    (hcf1 : ∀ i, i < n → CommuteMaps (faceMap t1 n) (μ i))
    (hcf2 : ∀ i, i < n → CommuteMaps (faceMap t2 n) (μ i))
    (hcomm : ∀ i k, i < n → k < n → i ≠ k → CommuteMaps (μ i) (μ k))
    (hfour : ∀ i, i < n → ∀ e : Cell, ValidCell n e → (μ i)^[4] e = e)
    (hpres : ∀ i, i < n → PreservesValid n (μ i)) :
    ∀ e : Cell, ValidCell n e →
      ((faceMap t1 n)^[a] ∘ (faceMap t2 n)^[4 - a] ∘ prodMap (fun i => (μ i)^[a]) n)
        (((faceMap t1 n)^[b] ∘ (faceMap t2 n)^[4 - b] ∘
          prodMap (fun i => (μ i)^[b]) n) e) =
      ((faceMap t1 n)^[a + b] ∘ (faceMap t2 n)^[4 - (a + b)] ∘
        prodMap (fun i => (μ i)^[a + b]) n) e := by
  intro e he
  show (faceMap t1 n)^[a] ((faceMap t2 n)^[4 - a] (prodMap (fun i => (μ i)^[a]) n
      ((faceMap t1 n)^[b] ((faceMap t2 n)^[4 - b]
        (prodMap (fun i => (μ i)^[b]) n e))))) =
    (faceMap t1 n)^[a + b] ((faceMap t2 n)^[4 - (a + b)]
      (prodMap (fun i => (μ i)^[a + b]) n e))
  have hcm1 : CommuteMaps ((faceMap t1 n)^[b]) (prodMap (fun i => (μ i)^[a]) n) :=
    prodMap_comm (fun i hi => (hcf1 i hi).iterate_both b a)
  have hcm2 : CommuteMaps ((faceMap t2 n)^[4 - b]) (prodMap (fun i => (μ i)^[a]) n) :=
    prodMap_comm (fun i hi => (hcf2 i hi).iterate_both (4 - b) a)
  have hcm12 : CommuteMaps ((faceMap t2 n)^[4 - a]) ((faceMap t1 n)^[b]) :=
    (comm_faceMap_faceMap (n := n) (Ne.symm h12)).iterate_both (4 - a) b
  have s2 := prodMap_pow_add a b hcomm e
  have hwvalid : ValidCell n (prodMap (fun i => (μ i)^[a + b]) n e) :=
    PreservesValid.prodMap (fun i hi => (hpres i hi).iterate (a + b)) e he
  have h4 : (4 - a) + (4 - b) = (4 - (a + b)) + 4 := by omega
  rw [← hcm1 ((faceMap t2 n)^[4 - b] (prodMap (fun i => (μ i)^[b]) n e)),
    ← hcm2 (prodMap (fun i => (μ i)^[b]) n e),
    hcm12 ((faceMap t2 n)^[4 - b] (prodMap (fun i => (μ i)^[a]) n
      (prodMap (fun i => (μ i)^[b]) n e))),
    ← Function.iterate_add_apply, ← Function.iterate_add_apply, s2, h4]
  congr 1
  rw [Function.iterate_add_apply, faceMap_four t2 _ hwvalid]

/-- Composing the reading maps of two successful applies of the same target
adds the rotation counts (as long as they stay within one full turn). -/
theorem applyMap_add {n : Nat} (t : MFace) (a b : Nat) (hok : OkCond n t)
    (hab : a + b ≤ 4) :
    ∀ e : Cell, ValidCell n e →
      applyMap n t a (applyMap n t b e) = applyMap n t (a + b) e := by
  cases t with
  | Front l =>
    simp only [OkCond] at hok
    exact face_layers_compose a b a b (a + b) (Or.inl rfl)
      (fun i hi => comm_faceMap_zMap (by decide) (by decide) (by decide) (by decide))
      (fun i k hi hk hik => comm_zMap_zMap (by omega) (by omega) (by omega))
      (fun i hi e he => zMap_four (by omega) e he)
  | Back l =>
    simp only [OkCond] at hok
    exact face_layers_compose a b (4 - a) (4 - b) (4 - (a + b)) (Or.inr (by omega))
      (fun i hi => comm_faceMap_zMap (by decide) (by decide) (by decide) (by decide))
      (fun i k hi hk hik => comm_zMap_zMap (by omega) (by omega) hik)
      (fun i hi e he => zMap_four (by omega) e he)
  | Left l =>
    simp only [OkCond] at hok
    exact face_layers_compose a b (4 - a) (4 - b) (4 - (a + b)) (Or.inr (by omega))
      (fun i hi => comm_faceMap_xMap (by decide) (by decide) (by decide) (by decide))
      (fun i k hi hk hik => comm_xMap_xMap (by omega) (by omega) hik)
      (fun i hi e he => xMap_four (by omega) e he)
  | Right l =>
    simp only [OkCond] at hok
    exact face_layers_compose a b a b (a + b) (Or.inl rfl)
      (fun i hi => comm_faceMap_xMap (by decide) (by decide) (by decide) (by decide))
      (fun i k hi hk hik => comm_xMap_xMap (by omega) (by omega) (by omega))
      (fun i hi e he => xMap_four (by omega) e he)
  | Up l =>
    simp only [OkCond] at hok
    exact face_layers_compose a b a b (a + b) (Or.inl rfl)
      (fun i hi => comm_faceMap_yMap (by decide) (by decide) (by decide) (by decide))
      (fun i k hi hk hik => comm_yMap_yMap hik)
      (fun i hi e he => yMap_four (by omega) e he)
  | Down l =>
    simp only [OkCond] at hok
    exact face_layers_compose a b (4 - a) (4 - b) (4 - (a + b)) (Or.inr (by omega))
      (fun i hi => comm_faceMap_yMap (by decide) (by decide) (by decide) (by decide))
      (fun i k hi hk hik => comm_yMap_yMap (by omega))
      (fun i hi e he => yMap_four (by omega) e he)
  | Standing =>
    simp only [OkCond] at hok
    intro e he
    show (zMap n 1)^[a] ((zMap n 1)^[b] e) = (zMap n 1)^[a + b] e
    rw [← Function.iterate_add_apply]
  | Middle =>
    simp only [OkCond] at hok
    intro e he
    show (xMap n 1)^[4 - a] ((xMap n 1)^[4 - b] e) = (xMap n 1)^[4 - (a + b)] e
    have h4 : (4 - a) + (4 - b) = (4 - (a + b)) + 4 := by omega
    rw [← Function.iterate_add_apply, h4, Function.iterate_add_apply,
      xMap_four (by omega) e he]
  | Equational =>
    simp only [OkCond] at hok
    intro e he
    show (yMap n 1)^[a] ((yMap n 1)^[b] e) = (yMap n 1)^[a + b] e
    rw [← Function.iterate_add_apply]
  | X =>
    exact xyz_compose a b hab (by decide)
      (fun i hi => comm_faceMap_xMap (by decide) (by decide) (by decide) (by decide))
      (fun i hi => comm_faceMap_xMap (by decide) (by decide) (by decide) (by decide))
      (fun i k hi hk hik => comm_xMap_xMap hi hk hik)
      (fun i hi e he => xMap_four hi e he)
      (fun i hi => preserves_xMap hi)
  | Y =>
    exact xyz_compose a b hab (by decide)
      (fun i hi => comm_faceMap_yMap (by decide) (by decide) (by decide) (by decide))
      (fun i hi => comm_faceMap_yMap (by decide) (by decide) (by decide) (by decide))
      (fun i k hi hk hik => comm_yMap_yMap hik)
      (fun i hi e he => yMap_four hi e he)
      (fun i hi => preserves_yMap hi)
  | Z =>
    exact xyz_compose a b hab (by decide)
      (fun i hi => comm_faceMap_zMap (by decide) (by decide) (by decide) (by decide))
      (fun i hi => comm_faceMap_zMap (by decide) (by decide) (by decide) (by decide))
      (fun i k hi hk hik => comm_zMap_zMap hi hk hik)
      (fun i hi e he => zMap_four hi e he)
      (fun i hi => preserves_zMap hi)

/-! ## Claim theorems -/

/-- The single-move inverse described by the specification: clockwise and
counterclockwise quarter turns swap, the half turn is self-inverse, the
target is unchanged. -/
def invertDirection : Rotation → Rotation
  | Rotation.Clockwise => Rotation.Counterclockwise
  | Rotation.Counterclockwise => Rotation.Clockwise
  | Rotation.Turnover => Rotation.Turnover

def invertMovement (m : Movement) : Movement :=
  { target := m.target, direction := invertDirection m.direction }

theorem rotationCount_add_invert (dir : Rotation) :
    rotationCount dir + rotationCount (invertDirection dir) = 4 := by
  cases dir <;> rfl

/-- C1 — Inverse cancellation: for every cube state and every movement on
which `apply` succeeds, applying the movement and then the movement with the
same target and the inverted direction (Clockwise ↔ Counterclockwise,
Turnover unchanged) succeeds and restores a state identical (all `N²`
entries of all six face grids) to the state before the first call — for
every move category (face turn of any depth, slice, whole-cube axis). -/
theorem C1_inverse_cancellation (c c1 : Cube) (m : Movement)
    (h : c.apply m = some (ApplyResult.ok c1)) :
    ∃ c2, c1.apply (invertMovement m) = some (ApplyResult.ok c2) ∧ c2.EqState c := by
  obtain ⟨t, dir⟩ := m
  rcases okCond_of_apply_ok rfl h with hok | ⟨h0, l, rfl⟩
  · obtain ⟨c1', e1, d1, v1⟩ := apply_tracks t dir c rfl hok
    have hc1 : c1' = c1 := ApplyResult.ok.inj (Option.some.inj (e1.symm.trans h))
    subst hc1
    obtain ⟨c2, e2, d2, v2⟩ := apply_tracks t (invertDirection dir) c1' d1 hok
    refine ⟨c2, e2, ?_⟩
    apply eqState_of_cellVal d2
    intro e he
    rw [v2 e he, v1 _ (applyMap_preserves t _ hok e he),
      applyMap_cancel t (rotationCount dir) (rotationCount (invertDirection dir)) hok
        (rotationCount_add_invert dir) e he]
  · have hc1 : c1.divisions = 0 := by
      obtain ⟨c1', e1', d1'⟩ := apply_up_zero (l := l) dir c h0
      have : c1' = c1 := ApplyResult.ok.inj (Option.some.inj (e1'.symm.trans h))
      subst this
      exact d1'
    obtain ⟨c2, e2, d2⟩ := apply_up_zero (l := l) (invertDirection dir) c1 hc1
    exact ⟨c2, e2, eqState_zero d2 h0⟩

/-- C7 — Half and counterclockwise turns as iterated clockwise turns: for
every cube state and every target on which `apply` succeeds, applying
(target, Turnover) yields the same state as two successive applications of
(target, Clockwise), and applying (target, Counterclockwise) yields the same
state as three successive applications of (target, Clockwise) — including
the targets Back, Left, Down whose layer rotations use `4 − count`. -/
theorem C7_iterated_clockwise (c : Cube) (t : MFace) :
    (∀ c2, c.apply ⟨t, Rotation.Turnover⟩ = some (ApplyResult.ok c2) →
      ∃ d1 d2, c.apply ⟨t, Rotation.Clockwise⟩ = some (ApplyResult.ok d1) ∧
        d1.apply ⟨t, Rotation.Clockwise⟩ = some (ApplyResult.ok d2) ∧
        d2.EqState c2) ∧
    (∀ c3, c.apply ⟨t, Rotation.Counterclockwise⟩ = some (ApplyResult.ok c3) →
      ∃ d1 d2 d3, c.apply ⟨t, Rotation.Clockwise⟩ = some (ApplyResult.ok d1) ∧
        d1.apply ⟨t, Rotation.Clockwise⟩ = some (ApplyResult.ok d2) ∧
        d2.apply ⟨t, Rotation.Clockwise⟩ = some (ApplyResult.ok d3) ∧
        d3.EqState c3) := by
  constructor
  · intro c2 h
    rcases okCond_of_apply_ok rfl h with hok | ⟨h0, l, rfl⟩
    · obtain ⟨c2', eTO, dTO, vTO⟩ := apply_tracks t Rotation.Turnover c rfl hok
      have hc2 : c2' = c2 := ApplyResult.ok.inj (Option.some.inj (eTO.symm.trans h))
      subst hc2
      obtain ⟨d1, e1, dd1, v1⟩ := apply_tracks t Rotation.Clockwise c rfl hok
      obtain ⟨d2, e2, dd2, v2⟩ := apply_tracks t Rotation.Clockwise d1 dd1 hok
      refine ⟨d1, d2, e1, e2, ?_⟩
      apply eqState_of_cellVal (by rw [dd2, dTO])
      intro e he
      have he' : ValidCell c.divisions e := by rw [dTO] at he; exact he
      simp only [rotationCount] at v1 v2 vTO
      rw [v2 e he', v1 _ (applyMap_preserves t 1 hok e he'),
        applyMap_add t 1 1 hok (by omega) e he']
      exact (vTO e he').symm
    · have h2 : c2.divisions = 0 := by
        obtain ⟨c2', e2', d2'⟩ := apply_up_zero (l := l) Rotation.Turnover c h0
        have : c2' = c2 := ApplyResult.ok.inj (Option.some.inj (e2'.symm.trans h))
        subst this
        exact d2'
      obtain ⟨d1, e1, dd1⟩ := apply_up_zero (l := l) Rotation.Clockwise c h0
      obtain ⟨d2, e2, dd2⟩ := apply_up_zero (l := l) Rotation.Clockwise d1 dd1
      exact ⟨d1, d2, e1, e2, eqState_zero dd2 h2⟩
  · intro c3 h
    rcases okCond_of_apply_ok rfl h with hok | ⟨h0, l, rfl⟩
    · obtain ⟨c3', eCC, dCC, vCC⟩ := apply_tracks t Rotation.Counterclockwise c rfl hok
      have hc3 : c3' = c3 := ApplyResult.ok.inj (Option.some.inj (eCC.symm.trans h))
      subst hc3
      obtain ⟨d1, e1, dd1, v1⟩ := apply_tracks t Rotation.Clockwise c rfl hok
      obtain ⟨d2, e2, dd2, v2⟩ := apply_tracks t Rotation.Clockwise d1 dd1 hok
      obtain ⟨d3, e3, dd3, v3⟩ := apply_tracks t Rotation.Clockwise d2 dd2 hok
      refine ⟨d1, d2, d3, e1, e2, e3, ?_⟩
      apply eqState_of_cellVal (by rw [dd3, dCC])
      intro e he
      have he' : ValidCell c.divisions e := by rw [dCC] at he; exact he
      simp only [rotationCount] at v1 v2 v3 vCC
      have hp1 := applyMap_preserves t 1 hok e he'
      rw [v3 e he', v2 _ hp1, v1 _ (applyMap_preserves t 1 hok _ hp1),
        applyMap_add t 1 1 hok (by omega) e he',
        applyMap_add t 1 2 hok (by omega) e he']
      exact (vCC e he').symm
    · have h3 : c3.divisions = 0 := by
        obtain ⟨c3', e3', d3'⟩ := apply_up_zero (l := l) Rotation.Counterclockwise c h0
        have : c3' = c3 := ApplyResult.ok.inj (Option.some.inj (e3'.symm.trans h))
        subst this
        exact d3'
      obtain ⟨d1, e1, dd1⟩ := apply_up_zero (l := l) Rotation.Clockwise c h0
      obtain ⟨d2, e2, dd2⟩ := apply_up_zero (l := l) Rotation.Clockwise d1 dd1
      obtain ⟨d3, e3, dd3⟩ := apply_up_zero (l := l) Rotation.Clockwise d2 dd2
      exact ⟨d1, d2, d3, e1, e2, e3, eqState_zero dd3 h3⟩

theorem map_ok_ne_err {o : Option Cube} {e : CubeError} {c2 : Cube}
    (h : o.map ApplyResult.ok = some (ApplyResult.err e c2)) : False := by
  cases o <;> simp at h

/-- C4 — Atomicity on failure: whenever `apply` returns an error, the
post-state is exactly the pre-state (all six face grids untouched). -/
theorem C4_error_atomicity (c : Cube) (m : Movement) (e : CubeError) (c2 : Cube)
    (h : c.apply m = some (ApplyResult.err e c2)) : c2 = c := by
  obtain ⟨t, dir⟩ := m
  cases t <;> simp only [Cube.apply] at h <;>
    first
      | exact (map_ok_ne_err h).elim
      | (by_cases hd : c.divisions ≠ 3
         · rw [if_pos hd] at h
           exact ((ApplyResult.err.inj (Option.some.inj h)).2).symm
         · rw [if_neg hd] at h
           exact (map_ok_ne_err h).elim)

/-- C5 — Slice-move domain: for every cube state, a slice move (Standing,
Middle, Equational) returns `Err (UndefinedMovement m)` carrying the
offending movement exactly when the division count differs from 3, and
succeeds when it equals 3. -/
theorem C5_slice_domain (c : Cube) (m : Movement) (hs : isSlice m.target = true) :
    (c.divisions ≠ 3 →
      c.apply m = some (ApplyResult.err (CubeError.UndefinedMovement m) c)) ∧
    (c.divisions = 3 → ∃ c2, c.apply m = some (ApplyResult.ok c2)) := by
  refine ⟨apply_slice_err hs, fun h3 => ?_⟩
  obtain ⟨t, dir⟩ := m
  cases t <;> simp only [isSlice] at hs
  case Standing =>
    obtain ⟨c2, e2, _, _⟩ := apply_tracks MFace.Standing dir c rfl h3
    exact ⟨c2, e2⟩
  case Middle =>
    obtain ⟨c2, e2, _, _⟩ := apply_tracks MFace.Middle dir c rfl h3
    exact ⟨c2, e2⟩
  case Equational =>
    obtain ⟨c2, e2, _, _⟩ := apply_tracks MFace.Equational dir c rfl h3
    exact ⟨c2, e2⟩
  all_goals exact absurd hs (by simp)

/-- C2 counterexample: the parser produces a depth-2 face move from `"r"`
(and from `"Rw"`), yet on a cube constructed with division count 1 this
movement does not return `Ok`: the engine's `divisions - 1 - i` underflow /
strip-length assertion panics (modelled as `none`), contradicting the claim
that `apply` returns `Ok` for face moves of any parser-producible depth on
cubes of any `N` including `N = 1`. -/
theorem C2_counterexample :
    movements "r".toList = [Except.ok ⟨MFace.Right 2, Rotation.Clockwise⟩] ∧
    (Cube.new 1).apply ⟨MFace.Right 2, Rotation.Clockwise⟩ = none :=
  ⟨by decide, rfl⟩

/-- C2 (amended) — Totality of apply on division counts `n ≥ 1`: `apply`
returns `Err (UndefinedMovement m)` exactly for slice moves when `n ≠ 3`;
it panics (modelled `none`) exactly for face moves whose depth exceeds `n`
(in particular depth 2 on `n = 1`); in every other case it returns `Ok`. -/
theorem C2_apply_totality (c : Cube) (m : Movement) (hn : 1 ≤ c.divisions) :
    ((∃ e c2, c.apply m = some (ApplyResult.err e c2)) ↔
      isSlice m.target = true ∧ c.divisions ≠ 3) ∧
    (c.apply m = none ↔ ∃ l, depth? m.target = some l ∧ c.divisions < l) ∧
    ((∃ c2, c.apply m = some (ApplyResult.ok c2)) ↔
      ¬(isSlice m.target = true ∧ c.divisions ≠ 3) ∧
        ¬∃ l, depth? m.target = some l ∧ c.divisions < l) := by
  obtain ⟨t, dir⟩ := m
  cases t with
  | Front l =>
    by_cases hl : l ≤ c.divisions
    · obtain ⟨c2, e2, _, _⟩ := apply_tracks (MFace.Front l) dir c rfl hl
      rw [e2]
      refine ⟨?_, ?_, ?_⟩ <;> simp [isSlice, depth?] <;> omega
    · rw [apply_front_none dir c rfl (by omega) (by omega)]
      refine ⟨?_, ?_, ?_⟩ <;> simp [isSlice, depth?] <;> omega
  | Back l =>
    by_cases hl : l ≤ c.divisions
    · obtain ⟨c2, e2, _, _⟩ := apply_tracks (MFace.Back l) dir c rfl hl
      rw [e2]
      refine ⟨?_, ?_, ?_⟩ <;> simp [isSlice, depth?] <;> omega
    · rw [apply_back_none dir c rfl (by omega) (by omega)]
      refine ⟨?_, ?_, ?_⟩ <;> simp [isSlice, depth?] <;> omega
  | Left l =>
    by_cases hl : l ≤ c.divisions
    · obtain ⟨c2, e2, _, _⟩ := apply_tracks (MFace.Left l) dir c rfl hl
      rw [e2]
      refine ⟨?_, ?_, ?_⟩ <;> simp [isSlice, depth?] <;> omega
    · rw [apply_left_none dir c rfl (by omega) (by omega)]
      refine ⟨?_, ?_, ?_⟩ <;> simp [isSlice, depth?] <;> omega
  | Right l =>
    by_cases hl : l ≤ c.divisions
    · obtain ⟨c2, e2, _, _⟩ := apply_tracks (MFace.Right l) dir c rfl hl
      rw [e2]
      refine ⟨?_, ?_, ?_⟩ <;> simp [isSlice, depth?] <;> omega
    · rw [apply_right_none dir c rfl (by omega) (by omega)]
      refine ⟨?_, ?_, ?_⟩ <;> simp [isSlice, depth?] <;> omega
  | Up l =>
    by_cases hl : l ≤ c.divisions
    · obtain ⟨c2, e2, _, _⟩ := apply_tracks (MFace.Up l) dir c rfl hl
      rw [e2]
      refine ⟨?_, ?_, ?_⟩ <;> simp [isSlice, depth?] <;> omega
    · rw [apply_up_none dir c rfl (by omega) (by omega)]
      refine ⟨?_, ?_, ?_⟩ <;> simp [isSlice, depth?] <;> omega
  | Down l =>
    by_cases hl : l ≤ c.divisions
    · obtain ⟨c2, e2, _, _⟩ := apply_tracks (MFace.Down l) dir c rfl hl
      rw [e2]
      refine ⟨?_, ?_, ?_⟩ <;> simp [isSlice, depth?] <;> omega
    · rw [apply_down_none dir c rfl (by omega) (by omega)]
      refine ⟨?_, ?_, ?_⟩ <;> simp [isSlice, depth?] <;> omega
  | Standing =>
    by_cases h3 : c.divisions = 3
    · obtain ⟨c2, e2, _, _⟩ := apply_tracks MFace.Standing dir c rfl h3
      rw [e2]
      refine ⟨?_, ?_, ?_⟩ <;> simp [isSlice, depth?] <;> omega
    · rw [apply_slice_err (m := ⟨MFace.Standing, dir⟩) rfl h3]
      refine ⟨?_, ?_, ?_⟩ <;> simp [isSlice, depth?] <;> omega
  | Middle =>
    by_cases h3 : c.divisions = 3
    · obtain ⟨c2, e2, _, _⟩ := apply_tracks MFace.Middle dir c rfl h3
      rw [e2]
      refine ⟨?_, ?_, ?_⟩ <;> simp [isSlice, depth?] <;> omega
    · rw [apply_slice_err (m := ⟨MFace.Middle, dir⟩) rfl h3]
      refine ⟨?_, ?_, ?_⟩ <;> simp [isSlice, depth?] <;> omega
  | Equational =>
    by_cases h3 : c.divisions = 3
    · obtain ⟨c2, e2, _, _⟩ := apply_tracks MFace.Equational dir c rfl h3
      rw [e2]
      refine ⟨?_, ?_, ?_⟩ <;> simp [isSlice, depth?] <;> omega
    · rw [apply_slice_err (m := ⟨MFace.Equational, dir⟩) rfl h3]
      refine ⟨?_, ?_, ?_⟩ <;> simp [isSlice, depth?] <;> omega
  | X =>
    obtain ⟨c2, e2, _, _⟩ := apply_tracks MFace.X dir c rfl trivial
    rw [e2]
    refine ⟨?_, ?_, ?_⟩ <;> simp [isSlice, depth?]
  | Y =>
    obtain ⟨c2, e2, _, _⟩ := apply_tracks MFace.Y dir c rfl trivial
    rw [e2]
    refine ⟨?_, ?_, ?_⟩ <;> simp [isSlice, depth?]
  | Z =>
    obtain ⟨c2, e2, _, _⟩ := apply_tracks MFace.Z dir c rfl trivial
    rw [e2]
    refine ⟨?_, ?_, ?_⟩ <;> simp [isSlice, depth?]

/-- Definition following the specification's words for C3: the row-major
index of the clockwise-quarter-turn destination of position
`(x, y) = (i mod n, i div n)`.  The coordinate convention is the one the
renderer fixes (fru.rs draws cell `i` of a face at column `i % n`
rightward and row `i / n` downward, row 0 at the top), under which one
clockwise quarter turn moves the entry at `(x, y)` to `(n-1-y, x)`,
i.e. row-major index `x * n + (n - 1 - y)`. -/
def cwDestSpec (n i : Nat) : Nat :=
  let x := i % n
  let y := i / n
  x * n + (n - 1 - y)

/-- C3 counterexample: at `n = 2`, `i = 0`, the table entry is 2 while the
clockwise-quarter-turn destination of position 0 is 1 — the table does not
map a position to the position its entry moves to. -/
theorem C3_counterexample :
    face_transform 2 0 = 2 ∧ cwDestSpec 2 0 = 1 ∧ face_transform 2 0 ≠ cwDestSpec 2 0 := by
  decide

/-- C3 (amended): the table built at construction is the *inverse* of the
clockwise-quarter-turn destination map — `table[i]` is the position whose
entry moves *to* `i` (equivalently, the counterclockwise destination of
`i`); consequently the face-turn reindexing `new[p] = old[table[p]]` moves
the entry at each position `i` to its clockwise destination. -/
theorem C3_table_is_cw_inverse (n i : Nat) (hi : i < n * n) :
    face_transform n (cwDestSpec n i) = i ∧
    cwDestSpec n (face_transform n i) = i ∧
    ∀ (c : Cube) (f : CubeFace), c.divisions = n →
      (c.turn_face f 1).faces f (cwDestSpec n i) = c.faces f i := by
  rcases Nat.eq_zero_or_pos n with h0 | hn
  · subst h0
    exact absurd hi (by simp)
  have hx : i % n < n := Nat.mod_lt _ hn
  have hy : i / n < n := by
    rw [Nat.div_lt_iff_lt_mul hn]
    exact hi
  have hdm : i / n * n + i % n = i := by
    rw [Nat.mul_comm]
    exact Nat.div_add_mod i n
  have key : ∀ x y, x < n → y < n →
      face_transform n (cwDestSpec n (y * n + x)) = y * n + x ∧
      cwDestSpec n (face_transform n (y * n + x)) = y * n + x := by
    intro x y hx2 hy2
    have hcw : cwDestSpec n (y * n + x) = x * n + (n - 1 - y) := by
      show (y * n + x) % n * n + (n - 1 - (y * n + x) / n) = _
      rw [enc_mod hx2, enc_div hx2]
    have hft : face_transform n (y * n + x) = (n - 1 - x) * n + y :=
      face_transform_coords hx2 hy2
    constructor
    · rw [hcw, face_transform_coords (x := n - 1 - y) (y := x) (by omega) hx2]
      have hyy : n - 1 - (n - 1 - y) = y := by omega
      rw [hyy]
    · rw [hft]
      show ((n - 1 - x) * n + y) % n * n + (n - 1 - ((n - 1 - x) * n + y) / n) = y * n + x
      rw [enc_mod hy2, enc_div hy2]
      have hxx : n - 1 - (n - 1 - x) = x := by omega
      rw [hxx]
  obtain ⟨k1, k2⟩ := key (i % n) (i / n) hx hy
  rw [hdm] at k1 k2
  refine ⟨k1, k2, ?_⟩
  intro c f hc
  subst hc
  have hgrid : (c.turn_face f 1).faces f (cwDestSpec c.divisions i) =
      c.faces f (face_transform c.divisions (cwDestSpec c.divisions i)) := by
    simp [Cube.turn_face, setFace]
  rw [hgrid, k1]

/-! ## Parser lemmas -/

theorem dropWhile_length_le {α : Type} (p : α → Bool) (l : List α) :
    (l.dropWhile p).length ≤ l.length := by
  induction l with
  | nil => simp [List.dropWhile]
  | cons b bs ih =>
    rw [List.dropWhile]
    by_cases hb : p b
    · rw [hb]
      simp only [List.length_cons]
      omega
    · rw [Bool.not_eq_true] at hb
      rw [hb]

theorem dropWhile_cons_length {α : Type} {p : α → Bool} {l t : List α} {a : α}
    (h : l.dropWhile p = a :: t) : t.length < l.length := by
  have h1 := dropWhile_length_le p l
  rw [h] at h1
  simp only [List.length_cons] at h1
  omega

theorem dropWhile_head_not {α : Type} {p : α → Bool} {l t : List α} {a : α}
    (h : l.dropWhile p = a :: t) : p a = false := by
  induction l with
  | nil => simp [List.dropWhile] at h
  | cons b bs ih =>
    rw [List.dropWhile] at h
    by_cases hb : p b
    · rw [hb] at h
      exact ih h
    · rw [Bool.not_eq_true] at hb
      rw [hb] at h
      have : b = a := (List.cons.inj h).1
      rw [← this]
      exact hb

theorem parseWide_length (layers0 : Nat) (rest : List Char) :
    (parseWide layers0 rest).2.length ≤ rest.length := by
  unfold parseWide
  split
  · split
    · rename_i r2 heq
      exact Nat.le_of_lt (dropWhile_cons_length heq)
    · rename_i heq _
      exact dropWhile_length_le _ _
  · exact Nat.le_refl _

theorem parseDirection_length (rest : List Char) :
    (parseDirection rest).2.length ≤ rest.length := by
  unfold parseDirection
  split
  · rename_i r3 heq
    exact Nat.le_of_lt (dropWhile_cons_length heq)
  · rename_i r3 heq
    exact Nat.le_of_lt (dropWhile_cons_length heq)
  · exact dropWhile_length_le _ _

theorem parseNext?_length {s : List Char} {r : Except MovementParseError Movement}
    {rest : List Char} (h : parseNext? s = some (r, rest)) :
    rest.length < s.length := by
  unfold parseNext? at h
  split at h
  · exact absurd h (by simp)
  · rename_i a t hd
    have hts : t.length < s.length := dropWhile_cons_length hd
    split at h
    · obtain ⟨-, h2⟩ := Prod.mk.inj (Option.some.inj h)
      subst h2
      omega
    · rename_i fc l0 heqc
      obtain ⟨-, h2⟩ := Prod.mk.inj (Option.some.inj h)
      subst h2
      have h3 := parseDirection_length (parseWide l0 t).2
      have h4 := parseWide_length l0 t
      show (parseDirection (parseWide l0 t).2).2.length < s.length
      omega

/-- The fuel `s.length` used by `movements` is enough: any two sufficient
fuels drive the iterator to the same full sequence. -/
theorem movementsAux_stable (s : List Char) (f1 f2 : Nat)
    (h1 : s.length ≤ f1) (h2 : s.length ≤ f2) :
    movementsAux f1 s = movementsAux f2 s := by
  have main : ∀ (k : Nat) (s : List Char), s.length ≤ k → ∀ f1 f2,
      s.length ≤ f1 → s.length ≤ f2 → movementsAux f1 s = movementsAux f2 s := by
    intro k
    induction k with
    | zero =>
      intro s hs f1 f2 hf1 hf2
      have hnil : s = [] := List.eq_nil_of_length_eq_zero (by omega)
      subst hnil
      cases f1 <;> cases f2 <;> rfl
    | succ k ih =>
      intro s hs f1 f2 hf1 hf2
      cases f1 with
      | zero =>
        have hnil : s = [] := List.eq_nil_of_length_eq_zero (by omega)
        subst hnil
        cases f2 <;> rfl
      | succ m1 =>
        cases f2 with
        | zero =>
          have hnil : s = [] := List.eq_nil_of_length_eq_zero (by omega)
          subst hnil
          rfl
        | succ m2 =>
          rcases hp : parseNext? s with _ | ⟨r, rest⟩
          · simp [movementsAux, hp]
          · have hlt := parseNext?_length hp
            simp only [movementsAux, hp]
            congr 1
            exact ih rest (by omega) m1 m2 (by omega) (by omega)
  exact main s.length s (Nat.le_refl _) f1 f2 h1 h2

theorem parseNext?_error_char {s : List Char} {ch : Char} {rest : List Char}
    (h : parseNext? s = some (Except.error (MovementParseError.InvalidFace ch), rest)) :
    isRustWhitespace ch = false := by
  unfold parseNext? at h
  split at h
  · exact absurd h (by simp)
  · rename_i a t hd
    split at h
    · obtain ⟨h1, -⟩ := Prod.mk.inj (Option.some.inj h)
      have hca : a = ch := by
        injection h1 with h2
        injection h2
      rw [← hca]
      exact dropWhile_head_not hd
    · obtain ⟨h1, -⟩ := Prod.mk.inj (Option.some.inj h)
      exact Except.noConfusion h1

theorem movementsAux_error_not_ws : ∀ (fuel : Nat) (s : List Char) (ch : Char),
    Except.error (MovementParseError.InvalidFace ch) ∈ movementsAux fuel s →
    isRustWhitespace ch = false := by
  intro fuel
  induction fuel with
  | zero =>
    intro s ch h
    simp [movementsAux] at h
  | succ m ih =>
    intro s ch h
    rcases hp : parseNext? s with _ | ⟨r, rest⟩
    · rw [show movementsAux (m + 1) s = [] from by simp [movementsAux, hp]] at h
      simp at h
    · rw [show movementsAux (m + 1) s = r :: movementsAux m rest from by
        simp [movementsAux, hp]] at h
      rcases List.mem_cons.mp h with h1 | h2
      · rw [← h1] at hp
        exact parseNext?_error_char hp
      · exact ih rest ch h2

/-- C6 — Parser equivalence on concrete tokens: `"Rw"` and `"r"` each parse
to exactly one item, the same Ok movement (Right, depth 2, clockwise);
`"R2"` parses to one item, Ok (Right, depth 1, Turnover); `"Q"` parses to
one item, `Err (InvalidFace 'Q')`. -/
theorem C6_parser_equivalence :
    movements "Rw".toList = [Except.ok ⟨MFace.Right 2, Rotation.Clockwise⟩] ∧
    movements "r".toList = [Except.ok ⟨MFace.Right 2, Rotation.Clockwise⟩] ∧
    movements "R2".toList = [Except.ok ⟨MFace.Right 1, Rotation.Turnover⟩] ∧
    movements "Q".toList = [Except.error (MovementParseError.InvalidFace 'Q')] := by
  decide

/-- C10 — Wide marker after non-face letters: a `w` after a slice letter is
consumed with no effect (`"Mw"`, `"Sw"`, `"Ew"` parse as the bare slice
moves), while a `w` after a whole-cube axis letter is not consumed
(`"xw"` parses as (X, Clockwise) followed by `Err (InvalidFace 'w')`). -/
theorem C10_wide_after_nonface :
    movements "Mw".toList = [Except.ok ⟨MFace.Middle, Rotation.Clockwise⟩] ∧
    movements "Sw".toList = [Except.ok ⟨MFace.Standing, Rotation.Clockwise⟩] ∧
    movements "Ew".toList = [Except.ok ⟨MFace.Equational, Rotation.Clockwise⟩] ∧
    movements "xw".toList = [Except.ok ⟨MFace.X, Rotation.Clockwise⟩,
      Except.error (MovementParseError.InvalidFace 'w')] := by
  decide

/-- C8 — Whitespace insensitivity: `"R U"`, `"RU"`, `"R  U"` parse to the
same two-item sequence of Ok movements, and for every input no item of the
parse sequence is an `InvalidFace` error carrying a whitespace character
(whitespace in the program's sense: the Unicode `White_Space` property). -/
theorem C8_whitespace_insensitivity :
    (movements "R U".toList = movements "RU".toList ∧
      movements "R  U".toList = movements "RU".toList ∧
      movements "RU".toList = [Except.ok ⟨MFace.Right 1, Rotation.Clockwise⟩,
        Except.ok ⟨MFace.Up 1, Rotation.Clockwise⟩]) ∧
    ∀ (s : List Char) (ch : Char),
      Except.error (MovementParseError.InvalidFace ch) ∈ movements s →
      isRustWhitespace ch = false :=
  ⟨by decide, fun s ch h => movementsAux_error_not_ws s.length s ch h⟩

/-! ## Facelet conservation -/

/-- The finite set of observable cells at division count `n`. -/
def cellSet (n : Nat) : Finset Cell :=
  Finset.univ ×ˢ Finset.range n ×ˢ Finset.range n

theorem mem_cellSet {n : Nat} (e : Cell) : e ∈ cellSet n ↔ ValidCell n e := by
  obtain ⟨f, x, y⟩ := e
  simp [cellSet, ValidCell, Finset.mem_product]

/-- Number of grid entries holding label `lab`, summed over the six face
grids (each grid contributing its `divisions²` observable entries). -/
def labelCount (c : Cube) (lab : CubeFace) : Nat :=
  ∑ f : CubeFace,
    ((Finset.range (c.divisions * c.divisions)).filter
      (fun p => c.faces f p = lab)).card

theorem face_filter_card {n : Nat} {c : Cube} (hc : c.divisions = n)
    (lab fc : CubeFace) :
    ((cellSet n).filter (fun e => CellVal c e = lab ∧ e.1 = fc)).card =
    ((Finset.range (n * n)).filter (fun p => c.faces fc p = lab)).card := by
  apply Finset.card_bij (fun e _ => e.2.2 * n + e.2.1)
  · rintro ⟨f, x, y⟩ he
    simp only [Finset.mem_filter, mem_cellSet, ValidCell, CellVal, hc] at he
    obtain ⟨⟨hx, hy⟩, hval, hf⟩ := he
    subst hf
    simp only [Finset.mem_filter, Finset.mem_range]
    exact ⟨enc_lt hx hy, hval⟩
  · rintro ⟨f1, x1, y1⟩ h1 ⟨f2, x2, y2⟩ h2 heq
    simp only [Finset.mem_filter, mem_cellSet, ValidCell] at h1 h2
    obtain ⟨⟨hx1, hy1⟩, -, hf1⟩ := h1
    obtain ⟨⟨hx2, hy2⟩, -, hf2⟩ := h2
    have hx : x1 = x2 := by
      have := congrArg (fun p => p % n) heq
      simp only [enc_mod hx1, enc_mod hx2] at this
      exact this
    have hy : y1 = y2 := by
      have := congrArg (fun p => p / n) heq
      simp only [enc_div hx1, enc_div hx2] at this
      exact this
    simp [hx, hy, hf1, hf2]
  · intro p hp
    simp only [Finset.mem_filter, Finset.mem_range] at hp
    obtain ⟨hlt, hval⟩ := hp
    have hn : 0 < n := by
      rcases Nat.eq_zero_or_pos n with h0 | h
      · subst h0; omega
      · exact h
    have hx : p % n < n := Nat.mod_lt _ hn
    have hy : p / n < n := by
      rw [Nat.div_lt_iff_lt_mul hn]
      exact hlt
    have hdm : p / n * n + p % n = p := by
      rw [Nat.mul_comm]
      exact Nat.div_add_mod p n
    refine ⟨(fc, p % n, p / n), ?_, hdm⟩
    simp only [Finset.mem_filter, mem_cellSet, ValidCell, CellVal, hc]
    exact ⟨⟨hx, hy⟩, by rw [hdm]; exact hval, trivial⟩

theorem labelCount_eq_cellCount {n : Nat} {c : Cube} (hc : c.divisions = n)
    (lab : CubeFace) :
    labelCount c lab = ((cellSet n).filter (fun e => CellVal c e = lab)).card := by
  have hsplit := Finset.card_eq_sum_card_fiberwise
    (s := (cellSet n).filter (fun e => CellVal c e = lab))
    (t := (Finset.univ : Finset CubeFace)) (f := Prod.fst)
    (fun e _ => Finset.mem_univ e.1)
  rw [hsplit]
  simp only [labelCount, hc]
  apply Finset.sum_congr rfl
  intro fc _
  rw [Finset.filter_filter]
  exact (face_filter_card hc lab fc).symm

/-- Transporting a label count across a valid-cell bijection between two
cubes whose entries are related by a reading map. -/
theorem cellCount_bij {n : Nat} {c2 c : Cube} {σ τ : Cell → Cell}
    (hσ : PreservesValid n σ) (hτ : PreservesValid n τ)
    (hστ : ∀ e, ValidCell n e → σ (τ e) = e)
    (hτσ : ∀ e, ValidCell n e → τ (σ e) = e)
    (hv : ∀ e, ValidCell n e → CellVal c2 e = CellVal c (σ e))
    (lab : CubeFace) :
    ((cellSet n).filter (fun e => CellVal c2 e = lab)).card =
    ((cellSet n).filter (fun e => CellVal c e = lab)).card := by
  apply Finset.card_bij (fun e _ => σ e)
  · intro e he
    rw [Finset.mem_filter, mem_cellSet] at he ⊢
    obtain ⟨hval, heq⟩ := he
    exact ⟨hσ e hval, by rw [← hv e hval]; exact heq⟩
  · intro e1 h1 e2 h2 heq
    rw [Finset.mem_filter, mem_cellSet] at h1 h2
    have h := congrArg τ heq
    rw [hτσ e1 h1.1, hτσ e2 h2.1] at h
    exact h
  · intro b hb
    rw [Finset.mem_filter, mem_cellSet] at hb
    refine ⟨τ b, ?_, hστ b hb.1⟩
    rw [Finset.mem_filter, mem_cellSet]
    exact ⟨hτ b hb.1, by rw [hv (τ b) (hτ b hb.1), hστ b hb.1]; exact hb.2⟩

/-- C9 — Facelet conservation: every successful `apply` acts as a
permutation of the `6·N²` facelets: the division count — and with it the
`N²`-entry extent of every face grid — is preserved, and for each of the six
facelet labels the total number of grid entries holding that label, summed
over the six face grids, is identical before and after the call. -/
theorem C9_facelet_conservation (c : Cube) (m : Movement) (c2 : Cube)
    (h : c.apply m = some (ApplyResult.ok c2)) :
    c2.divisions = c.divisions ∧
    ∀ lab : CubeFace, labelCount c2 lab = labelCount c lab := by
  obtain ⟨t, dir⟩ := m
  rcases okCond_of_apply_ok rfl h with hok | ⟨h0, l, rfl⟩
  · obtain ⟨c2', e2, d2, v2⟩ := apply_tracks t dir c rfl hok
    have hc2 : c2' = c2 := ApplyResult.ok.inj (Option.some.inj (e2.symm.trans h))
    subst hc2
    refine ⟨d2, fun lab => ?_⟩
    rw [labelCount_eq_cellCount d2 lab, labelCount_eq_cellCount rfl lab]
    have hk1 := rotationCount_pos dir
    have hk3 := rotationCount_le dir
    exact cellCount_bij
      (applyMap_preserves t (rotationCount dir) hok)
      (applyMap_preserves t (4 - rotationCount dir) hok)
      (fun e he =>
        applyMap_cancel t (rotationCount dir) (4 - rotationCount dir) hok
          (by omega) e he)
      (fun e he =>
        applyMap_cancel t (4 - rotationCount dir) (rotationCount dir) hok
          (by omega) e he)
      v2 lab
  · have hd2 : c2.divisions = 0 := by
      obtain ⟨c2', e2', d2'⟩ := apply_up_zero (l := l) dir c h0
      have hcc : c2' = c2 := ApplyResult.ok.inj (Option.some.inj (e2'.symm.trans h))
      subst hcc
      exact d2'
    refine ⟨by rw [hd2, h0], fun lab => ?_⟩
    simp [labelCount, hd2, h0]

/-! ## Concrete states for instantiation -/

/-- Extract the cube of a successful `apply` result. -/
def okState? : Option ApplyResult → Option Cube
  | some (ApplyResult.ok c) => some c
  | _ => none

/-- The state after `R` on a fresh 3-division cube. -/
def c1R3 : Cube :=
  (okState? ((Cube.new 3).apply ⟨MFace.Right 1, Rotation.Clockwise⟩)).getD (Cube.new 3)

/-- The state after `R2` on a fresh 3-division cube. -/
def c2R3TO : Cube :=
  (okState? ((Cube.new 3).apply ⟨MFace.Right 1, Rotation.Turnover⟩)).getD (Cube.new 3)

theorem C1_witness :
    (Cube.new 3).apply ⟨MFace.Right 1, Rotation.Clockwise⟩ =
      some (ApplyResult.ok c1R3) ∧
    ∃ c2, c1R3.apply (invertMovement ⟨MFace.Right 1, Rotation.Clockwise⟩) =
      some (ApplyResult.ok c2) ∧ c2.EqState (Cube.new 3) :=
  ⟨rfl, C1_inverse_cancellation (Cube.new 3) c1R3
    ⟨MFace.Right 1, Rotation.Clockwise⟩ rfl⟩

theorem C7_witness :
    (Cube.new 3).apply ⟨MFace.Right 1, Rotation.Turnover⟩ =
      some (ApplyResult.ok c2R3TO) ∧
    ∃ d1 d2, (Cube.new 3).apply ⟨MFace.Right 1, Rotation.Clockwise⟩ =
        some (ApplyResult.ok d1) ∧
      d1.apply ⟨MFace.Right 1, Rotation.Clockwise⟩ = some (ApplyResult.ok d2) ∧
      d2.EqState c2R3TO :=
  ⟨rfl, (C7_iterated_clockwise (Cube.new 3) (MFace.Right 1)).1 c2R3TO rfl⟩

theorem C4_witness :
    (Cube.new 4).apply ⟨MFace.Middle, Rotation.Clockwise⟩ =
      some (ApplyResult.err
        (CubeError.UndefinedMovement ⟨MFace.Middle, Rotation.Clockwise⟩)
        (Cube.new 4)) ∧
    Cube.new 4 = Cube.new 4 :=
  ⟨rfl, C4_error_atomicity (Cube.new 4) ⟨MFace.Middle, Rotation.Clockwise⟩
    (CubeError.UndefinedMovement ⟨MFace.Middle, Rotation.Clockwise⟩)
    (Cube.new 4) rfl⟩

theorem C5_witness :
    isSlice MFace.Middle = true ∧
    (((Cube.new 4).divisions ≠ 3 →
        (Cube.new 4).apply ⟨MFace.Middle, Rotation.Clockwise⟩ =
          some (ApplyResult.err
            (CubeError.UndefinedMovement ⟨MFace.Middle, Rotation.Clockwise⟩)
            (Cube.new 4))) ∧
      ((Cube.new 4).divisions = 3 →
        ∃ c2, (Cube.new 4).apply ⟨MFace.Middle, Rotation.Clockwise⟩ =
          some (ApplyResult.ok c2))) :=
  ⟨rfl, C5_slice_domain (Cube.new 4) ⟨MFace.Middle, Rotation.Clockwise⟩ rfl⟩

theorem C2_witness :
    1 ≤ (Cube.new 1).divisions ∧
    (((∃ e c2, (Cube.new 1).apply ⟨MFace.Right 2, Rotation.Clockwise⟩ =
          some (ApplyResult.err e c2)) ↔
        isSlice (MFace.Right 2) = true ∧ (Cube.new 1).divisions ≠ 3) ∧
      ((Cube.new 1).apply ⟨MFace.Right 2, Rotation.Clockwise⟩ = none ↔
        ∃ l, depth? (MFace.Right 2) = some l ∧ (Cube.new 1).divisions < l) ∧
      ((∃ c2, (Cube.new 1).apply ⟨MFace.Right 2, Rotation.Clockwise⟩ =
          some (ApplyResult.ok c2)) ↔
        ¬(isSlice (MFace.Right 2) = true ∧ (Cube.new 1).divisions ≠ 3) ∧
          ¬∃ l, depth? (MFace.Right 2) = some l ∧ (Cube.new 1).divisions < l)) :=
  ⟨Nat.le_refl 1,
    C2_apply_totality (Cube.new 1) ⟨MFace.Right 2, Rotation.Clockwise⟩ (Nat.le_refl 1)⟩

theorem C3_witness :
    (5 : Nat) < 3 * 3 ∧
    face_transform 3 (cwDestSpec 3 5) = 5 ∧
    cwDestSpec 3 (face_transform 3 5) = 5 ∧
    ((Cube.new 3).turn_face CubeFace.Front 1).faces CubeFace.Front (cwDestSpec 3 5) =
      (Cube.new 3).faces CubeFace.Front 5 :=
  ⟨by decide,
    (C3_table_is_cw_inverse 3 5 (by decide)).1,
    (C3_table_is_cw_inverse 3 5 (by decide)).2.1,
    (C3_table_is_cw_inverse 3 5 (by decide)).2.2 (Cube.new 3) CubeFace.Front rfl⟩

theorem C8_witness :
    Except.error (MovementParseError.InvalidFace 'Q') ∈ movements "Q".toList ∧
    isRustWhitespace 'Q' = false :=
  ⟨by decide, C8_whitespace_insensitivity.2 "Q".toList 'Q' (by decide)⟩

theorem C9_witness :
    (Cube.new 3).apply ⟨MFace.Right 1, Rotation.Clockwise⟩ =
      some (ApplyResult.ok c1R3) ∧
    (c1R3.divisions = (Cube.new 3).divisions ∧
      ∀ lab : CubeFace, labelCount c1R3 lab = labelCount (Cube.new 3) lab) :=
  ⟨rfl, C9_facelet_conservation (Cube.new 3) ⟨MFace.Right 1, Rotation.Clockwise⟩
    c1R3 rfl⟩
